import Mathlib

/-!
# statify: the state-machine binding generator of `main.go`

A shallow embedding of the generator's pipeline: the loop that builds the
`states` and `events` maps from the decoded schema, the identifier normaliser
`gName`, the template of the generated file, and the derivation of the output
path.

Go maps are association lists whose keys are pairwise distinct. A `range` over
a map, and `maps.Values`, visit the entries in an order the language leaves
open; the order actually taken is an explicit list here, any permutation of the
map's entries.
-/

namespace Statify

/-! ## Data model (main.go, lines 17-61) -/

/-- Event of the model: its name, its source states and its destination. -/
structure Event where
  Name : String
  From : List String
  To : String
deriving DecidableEq, Repr

/-- State of the model. -/
structure State where
  Name : String
deriving DecidableEq, Repr

/-- Data handed to the template. -/
structure Input where
  Events : List Event
  States : List State
  InitialState : State
  Package : String
  TypeName : String
deriving DecidableEq, Repr

/-- A Go `map[string]α`, as the list of its entries. -/
abbrev GoMap (α : Type) := List (String × α)

/-- Per-state record of the schema: the transition table `on` (event name to
destination) and the state-type tag `type`. -/
structure srcState where
  On : GoMap String
  Typ : String
deriving DecidableEq, Repr

/-- The decoded schema. -/
structure FSMData where
  Id : String
  Initial : String
  Description : String
  States : GoMap srcState
deriving DecidableEq, Repr

/-! ## Go maps -/

/-- Reading `m[k]` with the comma-ok form: `none` when the key is absent. -/
def GoMap.get? {α : Type} : GoMap α → String → Option α
  | [], _ => none
  | (k1, v) :: rest, k => if k1 = k then some v else GoMap.get? rest k

/-- The assignment `m[k] = v`: overwrites the entry of `k`, or adds one. -/
def GoMap.set {α : Type} : GoMap α → String → α → GoMap α
  | [], k, v => [(k, v)]
  | (k1, v1) :: rest, k, v =>
    if k1 = k then (k, v) :: rest else (k1, v1) :: GoMap.set rest k v

/-- Keys of a map, in the order of its entries. -/
def GoMap.keys {α : Type} (m : GoMap α) : List String := m.map Prod.fst

/-- Values of a map, in the order of its entries. -/
def GoMap.values {α : Type} (m : GoMap α) : List α := m.map Prod.snd

/-- A map value is well formed when no key occurs twice. -/
def GoMap.WF {α : Type} (m : GoMap α) : Prop := m.keys.Nodup

/-! ## Model construction (main.go, lines 80-102) -/

/-- Message of the `log.Fatalf` call of line 96, with its three arguments in
the order the call passes them. -/
def fatalMsg (a b c : String) : String :=
  "Event " ++ a ++ " has two destinations, " ++ b ++ " and " ++ c ++
    " which is not supported 😢."

/-- Body of the inner loop (lines 86-100) for the entry `ek ↦ ev` of the
transition table of state `k`. -/
def onEntry (k : String) (events : GoMap Event) (ek ev : String) :
    Except String (GoMap Event) :=
  match events.get? ek with
  | none => .ok (events.set ek { Name := ek, From := [k], To := ev })
  | some e =>
    if ev ≠ e.To then .error (fatalMsg k ev e.To)
    else .ok (events.set ek { e with From := e.From ++ [k] })

/-- Inner loop (lines 85-101) over the transition table of state `k`, in the
order `on` in which the entries are visited. -/
def onLoop (k : String) : List (String × String) → GoMap Event →
    Except String (GoMap Event)
  | [], events => .ok events
  | (ek, ev) :: rest, events =>
    match onEntry k events ek ev with
    | .error msg => .error msg
    | .ok events1 => onLoop k rest events1

/-- Outer loop (lines 83-102) over the states in the order visited. -/
def statesLoop : List (String × srcState) → GoMap Bool → GoMap Event →
    Except String (GoMap Bool × GoMap Event)
  | [], states, events => .ok (states, events)
  | (k, v) :: rest, states, events =>
    match onLoop k v.On events with
    | .error msg => .error msg
    | .ok events1 => statesLoop rest (states.set k true) events1

/-- Lines 80-102: both maps start empty; `visit` lists the states in the order
the outer `range` yields them, each with its table in the order the inner
`range` yields its entries. -/
def buildModel (visit : List (String × srcState)) :
    Except String (GoMap Bool × GoMap Event) :=
  statesLoop visit [] []

/-- The list `visit` is an order in which the two nested `range` loops can go
through the map `m`: entry by entry a table `m1` lists the tables of `m` in
some order of their entries, and `visit` is `m1` in some order. -/
def Traversal (m visit : GoMap srcState) : Prop :=
  ∃ m1 : GoMap srcState,
    List.Forall₂ (fun a b => a.1 = b.1 ∧ a.2.Typ = b.2.Typ ∧ b.2.On.Perm a.2.On) m m1 ∧
      visit.Perm m1

/-- State `k` of the schema declares event `ek` with destination `ev`. -/
def Declares (fsm : FSMData) (k ek ev : String) : Prop :=
  ∃ st, (k, st) ∈ fsm.States ∧ (ek, ev) ∈ st.On

/-- The schema is a value of its Go type: no state name and, within one
table, no event name occurs twice. -/
def FSMData.WF (fsm : FSMData) : Prop :=
  fsm.States.WF ∧ ∀ k st, (k, st) ∈ fsm.States → st.On.WF

/-- No event name is declared with two different destinations. -/
def Unambiguous (fsm : FSMData) : Prop :=
  ∀ k1 k2 ek d1 d2, Declares fsm k1 ek d1 → Declares fsm k2 ek d2 → d1 = d2

/-! ## Identifier normaliser (main.go, lines 146-160)

Strings are handled as lists of code points. The case mappings of `strings`
and of `golang.org/x/text/cases` are tables over all of Unicode, which are not
part of `main.go`. They come in two forms here. `gNameWith` takes them as
parameters and stands for `gName` on every name. `gName` is `gNameWith` at the
ASCII part of the tables (`lowerRune`, `title`), which is what the library
does on names of ASCII code points. A statement on arbitrary names that
depends on the tables is made over `gNameWith`. -/

/-- ASCII capital letter. -/
def isUpperAscii (c : Char) : Bool := decide (65 ≤ c.toNat) && decide (c.toNat ≤ 90)

/-- ASCII small letter. -/
def isLowerAscii (c : Char) : Bool := decide (97 ≤ c.toNat) && decide (c.toNat ≤ 122)

/-- Lower-case mapping of one code point, ASCII part: `A`-`Z` go to `a`-`z`. -/
def lowerRune (c : Char) : Char :=
  if isUpperAscii c then Char.ofNat (c.toNat + 32) else c

/-- Title-case mapping of one code point, ASCII part: `a`-`z` go to `A`-`Z`. -/
def titleRune (c : Char) : Char :=
  if isLowerAscii c then Char.ofNat (c.toNat - 32) else c

/-- The call `strings.ReplaceAll(s, old, new)` for a one-character `old`. -/
def replaceAll (s : List Char) (old : Char) (new : List Char) : List Char :=
  s.flatMap (fun c => if c = old then new else [c])

/-- The call `strings.ToLower(s)` on a string of ASCII code points. -/
def toLower (s : List Char) : List Char := s.map lowerRune

/-- Cased code points, ASCII part: the letters `A`-`Z` and `a`-`z`. -/
def isCased (c : Char) : Bool := isUpperAscii c || isLowerAscii c

/-- Code points that may stand inside a word between two letters (full stop,
colon, apostrophe). -/
def isMid (c : Char) : Bool :=
  decide (c.toNat = 46) || decide (c.toNat = 58) || decide (c.toNat = 39)

/-- Code points that end a word: everything but letters, digits, the
underscore and the characters of `isMid`. -/
def isBreak (c : Char) : Bool :=
  !(isCased c || (decide (48 ≤ c.toNat) && decide (c.toNat ≤ 57)) || decide (c.toNat = 95)
    || isMid c)

/-- The transformer of `cases.Title(language.Und)` on ASCII code points: the
first cased code point of a word is title-cased and the cased code points
after it are lower-cased; `midWord` tells whether a word is being read. -/
def titleLoop : Bool → List Char → List Char
  | _, [] => []
  | midWord, c :: rest =>
    let out := if isCased c then (if midWord then lowerRune c else titleRune c) else c
    let mid1 := if isCased c then true else if isBreak c then false else midWord
    let mid2 :=
      match rest with
      | [] => mid1
      | n :: _ => if isMid c && isMid n then false else mid1
    out :: titleLoop mid2 rest

/-- The call `cases.Title(language.Und).String(s)` on a string of ASCII code
points. -/
def title (s : List Char) : List Char := titleLoop false s

/-- Function `gName` (lines 154-160), with the ASCII part of the two library
calls. -/
def gName (s : String) : String :=
  String.mk (replaceAll (title (toLower (replaceAll s.data '_' [' ']))) ' ' [])

/-- Function `gName` (lines 154-160) with the tables of its two library calls
as parameters: `lower` is the mapping of one code point that `strings.ToLower`
applies to every code point of its argument, and `caser` is the call
`cases.Title(language.Und).String`. -/
def gNameWith (lower : Char → Char) (caser : List Char → List Char) (s : String) : String :=
  String.mk (replaceAll (caser ((replaceAll s.data '_' [' ']).map lower)) ' ' [])

/-- Function `stateName` (lines 146-148) over `gNameWith`. -/
def stateNameWith (lower : Char → Char) (caser : List Char → List Char) (s : String) :
    String :=
  gNameWith lower caser s ++ "State"

/-- Function `eventName` (lines 150-152) over `gNameWith`. -/
def eventNameWith (lower : Char → Char) (caser : List Char → List Char) (s : String) :
    String :=
  gNameWith lower caser s ++ "Event"

/-- The call `strings.ToLower(s)` for the mapping `lower` of one code point:
the name `s` in lower case. -/
def loweredWith (lower : Char → Char) (s : String) : String :=
  String.mk (s.data.map lower)

/-- Function `stateName` (lines 146-148). -/
def stateName (s : String) : String := gName s ++ "State"

/-- Function `eventName` (lines 150-152). -/
def eventName (s : String) : String := gName s ++ "Event"

/-- Method `NameGo` of `Event` (lines 23-25). -/
def Event.NameGo (e : Event) : String := eventName e.Name

/-- Method `ToGo` of `Event` (lines 27-29). -/
def Event.ToGo (e : Event) : String := stateName e.To

/-- Method `NameGo` of `State` (lines 35-37). -/
def State.NameGo (s : State) : String := stateName s.Name

/-- Method `StateName` of `Input` (lines 47-49). -/
def Input.StateName (_ : Input) (s : String) : String := stateName s

/-! ## Assembling the template data (main.go, lines 111-129) -/

/-- Lines 111-116: `order` lists the keys of `states` in the order the `range`
yields them. -/
def statesList (order : List String) (initial : String) : List State :=
  (order.filter (fun s => decide (s ≠ initial))).map State.mk

/-- Lines 118-121: the package name, from the value of `GOPACKAGE`. -/
def packageName (gopackage : String) : String :=
  if gopackage.length = 0 then "main" else gopackage

/-- Lines 123-129: `sOrd` is the order of the `range` over `states`, `eOrd`
the slice that `maps.Values(events)` returns. -/
def mkInput (fsm : FSMData) (typeName gopackage : String) (sOrd : List String)
    (eOrd : List Event) : Input :=
  { Events := eOrd
    States := statesList sOrd fsm.Initial
    Package := packageName gopackage
    TypeName := typeName
    InitialState := { Name := fsm.Initial } }

/-! ## Output path (main.go, lines 136-137) -/

/-- The call `strings.TrimRight(s, cutset)`: the trailing code points that
belong to `cutset` are dropped. -/
def trimRight (s cutset : List Char) : List Char :=
  (s.reverse.dropWhile (fun c => decide (c ∈ cutset))).reverse

/-- Lines 136-137. -/
def destinationFile (arg1 : String) : String :=
  String.mk (trimRight arg1.data ".json".data) ++ ".go"

/-! ## The template (main.go, lines 162-276)

Each function below is one stretch of the template text, with the actions
replaced by the values they print. -/

/-- Lines 163-177: package clause, imports and the two string types. -/
def tmplTypes (d : Input) : String :=
  "\n// Code generated by \"fsmfy.go\"; DO NOT EDIT.\npackage " ++ d.Package ++
  "\n\nimport (\n\t\"context\"\n\n\t\"github.com/looplab/fsm\"\n)\n\ntype (\n\t// " ++
  d.TypeName ++ "State represents all states for this FSM.\n\t" ++
  d.TypeName ++ "State string\n\t//" ++
  d.TypeName ++ "Event  represents all events for this FSM.\n\t" ++
  d.TypeName ++ "Event string\n)\n\n"

/-- Body of the `range .States` of lines 183-185, once per state. -/
def rangeStates (d : Input) : List State → String
  | [] => ""
  | s :: rest =>
    " \n\t// " ++ s.NameGo ++ " state.\n\t" ++ s.NameGo ++ " " ++ d.TypeName ++
      "State" ++ " = \"" ++ s.Name ++ "\"" ++ " " ++ rangeStates d rest

/-- Body of the `range .Events` of lines 188-190, once per event. -/
def rangeEventConsts (d : Input) : List Event → String
  | [] => ""
  | e :: rest =>
    "\n\t// " ++ e.NameGo ++ " state.\n\t" ++ e.NameGo ++ " " ++ d.TypeName ++
      "Event" ++ " = \"" ++ e.Name ++ "\"" ++ rangeEventConsts d rest

/-- Lines 179-191: the constant block. -/
def tmplConsts (d : Input) : String :=
  "const (\n\t// States.\n\t// " ++ d.InitialState.NameGo ++ " is initial state.\n\t" ++
  d.InitialState.NameGo ++ " " ++ d.TypeName ++ "State" ++ " = \"" ++ d.InitialState.Name ++
  "\"" ++ "\n\t" ++ rangeStates d d.States ++ "\n\n\t//Events.\n\t" ++
  rangeEventConsts d d.Events ++ "\n)\n\n"

/-- Lines 193-196: the wrapper type. -/
def tmplStruct (d : Input) : String :=
  "//" ++ d.TypeName ++ "  implements FSM.\ntype " ++ d.TypeName ++
  " struct \x7b\n\tfsm *fsm.FSM\n\x7d\n\n"

/-- Body of the `range $i, $e := .From` of line 204; `i` is the index of the
first element of the list. -/
def rangeFrom (d : Input) : Nat → List String → String
  | _, [] => ""
  | i, e :: rest =>
    (if i ≠ 0 then ", " else "") ++ d.StateName e ++ ".String()" ++ rangeFrom d (i + 1) rest

/-- Body of the `range .Events` of lines 203-204, once per event. -/
def rangeRules (d : Input) : List Event → String
  | [] => ""
  | e :: rest =>
    "\n\t\t\t\t\x7b Name: " ++ e.NameGo ++ ".String(), Src:[]string\x7b " ++
      rangeFrom d 0 e.From ++ " \x7d, Dst: " ++ e.ToGo ++ ".String() \x7d,  " ++
      rangeRules d rest

/-- Lines 198-209: the constructor. -/
def tmplNew (d : Input) : String :=
  "//New" ++ d.TypeName ++ " creates new FSM with callbacks provided.\nfunc New" ++
  d.TypeName ++ "(callbacks fsm.Callbacks) *" ++ d.TypeName ++
  " \x7b\n\tfsm := fsm.NewFSM(\n\t\t" ++ d.InitialState.NameGo ++
  ".String(),\n\t\tfsm.Events\x7b\n\t\t\t" ++ rangeRules d d.Events ++
  "\t\t\t\n\t\t\x7d,\n\t\tcallbacks,\n\t)\n\treturn &" ++ d.TypeName ++
  "\x7bfsm: fsm\x7d\n\x7d\n\n"

/-- Lines 211-275: the delegating methods. -/
def tmplMethods (d : Input) : String :=
  "// String returns string representation of the state.\nfunc (s " ++ d.TypeName ++
  "State) String() string \x7b\n\treturn string(s)\n\x7d\n\n// String returns string representation of the event.\nfunc (s " ++
  d.TypeName ++
  "Event) String() string \x7b\n\treturn string(s)\n\x7d\n\n// Current returns the current state of the " ++
  d.TypeName ++ ".\nfunc (f *" ++ d.TypeName ++ ") Current() " ++ d.TypeName ++
  "State \x7b\n\treturn " ++ d.TypeName ++
  "State(f.fsm.Current())\n\x7d\n\n// Is returns true if state is the current state.\nfunc (f *" ++
  d.TypeName ++ ") Is(state " ++ d.TypeName ++
  "State) bool \x7b\n\treturn f.fsm.Is(state.String())\n\x7d\n\n// SetState allows the user to move to the given state from current state.\n// The call does not trigger any callbacks, if defined.\nfunc (f *" ++
  d.TypeName ++ ") SetState(state " ++ d.TypeName ++
  "State) \x7b\n\tf.fsm.SetState(state.String())\n\x7d\n\n// Can returns true if event can occur in the current state.\nfunc (f *" ++
  d.TypeName ++ ") Can(event " ++ d.TypeName ++
  "Event) bool \x7b\n\treturn f.fsm.Can(event.String())\n\x7d\n\n// AvailableTransitions returns a list of transitions available in the\n// current state.\nfunc (f *" ++
  d.TypeName ++
  ") AvailableTransitions() []string \x7b\n\treturn f.fsm.AvailableTransitions()\n\x7d\n\n// Cannot returns true if event can not occur in the current state.\n// It is a convenience method to help code read nicely.\nfunc (f *" ++
  d.TypeName ++ ") Cannot(event " ++ d.TypeName ++
  "Event) bool \x7b\n\treturn f.fsm.Cannot(event.String())\n\x7d\n\n// Metadata returns the value stored in metadata\nfunc (f *" ++
  d.TypeName ++
  ") Metadata(key string) (interface\x7b\x7d, bool) \x7b\n\treturn f.fsm.Metadata(key)\n\x7d\n\n// SetMetadata stores the dataValue in metadata indexing it with key\nfunc (f *" ++
  d.TypeName ++
  ") SetMetadata(key string, dataValue interface\x7b\x7d) \x7b\n\tf.fsm.SetMetadata(key, dataValue)\n\x7d\n\n// DeleteMetadata deletes the dataValue in metadata by key\nfunc (f *" ++
  d.TypeName ++
  ") DeleteMetadata(key string) \x7b\n\tf.fsm.DeleteMetadata(key)\n\x7d\n\n// Event initiates a state transition with the named event.\n//\n// The call takes a variable number of arguments that will be passed to the\n// callback, if defined.\nfunc (f *" ++
  d.TypeName ++ ") Event(ctx context.Context, event " ++ d.TypeName ++
  "Event, args ...interface\x7b\x7d) error \x7b\n\treturn f.fsm.Event(ctx, event.String(), args...)\n\x7d\n"

/-- Executing the template on `d` (line 130): the text left in the buffer. -/
def render (d : Input) : String :=
  tmplTypes d ++ tmplConsts d ++ tmplStruct d ++ tmplNew d ++ tmplMethods d

/-! ## The run of `main` (lines 63-144) -/

/-- What a run leaves behind: a fatal log message and no file, or the file
written at `path` with `content`. -/
inductive Outcome where
  | fatal (msg : String)
  | written (path content : String)
deriving DecidableEq, Repr

/-- The value `d` can be the data handed to the template for the schema `fsm`:
the loops get through some traversal of the schema, and the two lists of `d`
come from some order of the keys of `states` and of the values of `events`. -/
def InputOf (fsm : FSMData) (typeName gopackage : String) (d : Input) : Prop :=
  ∃ visit states events sOrd eOrd,
    Traversal fsm.States visit ∧ buildModel visit = .ok (states, events) ∧
      sOrd.Perm states.keys ∧ eOrd.Perm events.values ∧
      d = mkInput fsm typeName gopackage sOrd eOrd

/-- Some traversal of the schema `fsm` ends in the fatal message `msg`. -/
def FatalOf (fsm : FSMData) (msg : String) : Prop :=
  ∃ visit, Traversal fsm.States visit ∧ buildModel visit = .error msg

/-- The outcomes of `main` from line 80 on, for the decoded schema `fsm`, with
`arg1` the schema path, `arg2` the type name and `gopackage` the value of
`GOPACKAGE`. Failures of the file system (lines 66-76, 140-143) are left out.
The method `format` of the generator's buffer is defined outside `main.go` and
is a parameter. -/
def MainRun (format : String → String) (arg1 arg2 gopackage : String) (fsm : FSMData) :
    Outcome → Prop
  | .fatal msg => FatalOf fsm msg
  | .written path content =>
    ∃ d, InputOf fsm arg2 gopackage d ∧ path = destinationFile arg1 ∧
      content = format (render d)

/-! ## Example schemas -/

/-- The failure scenario: `red` and `yellow` declare `go` with the
destinations `green` and `blue`. -/
def conflictFsm : FSMData :=
  { Id := "", Initial := "red", Description := "",
    States := [("red", { On := [("go", "green")], Typ := "" }),
               ("yellow", { On := [("go", "blue")], Typ := "" })] }

/-- The merge scenario: `A` and `B` declare `go` with the same destination `C`. -/
def mergeFsm : FSMData :=
  { Id := "", Initial := "A", Description := "",
    States := [("A", { On := [("go", "C")], Typ := "" }),
               ("B", { On := [("go", "C")], Typ := "" }),
               ("C", { On := [], Typ := "" })] }

/-- The end-to-end example: a light that goes from `red` to `green` and back. -/
def lightFsm : FSMData :=
  { Id := "", Initial := "red", Description := "",
    States := [("red", { On := [("go", "green")], Typ := "" }),
               ("green", { On := [("stop", "red")], Typ := "" })] }

/-- Template data of the run on `mergeFsm` that visits `A` before `B`. -/
def mergeInputAB : Input :=
  mkInput mergeFsm "Merge" "" ["A", "B", "C"] [{ Name := "go", From := ["A", "B"], To := "C" }]

/-- Template data of the run on `mergeFsm` that visits `B` before `A`, with
the keys of `states` ranged over from `C` to `A`. -/
def mergeInputBA : Input :=
  mkInput mergeFsm "Merge" "" ["C", "B", "A"] [{ Name := "go", From := ["B", "A"], To := "C" }]

/-- A schema whose initial state `idle` and whose destination `b` are not
among its states. -/
def danglingFsm : FSMData :=
  { Id := "", Initial := "idle", Description := "",
    States := [("a", { On := [("go", "b")], Typ := "" })] }

/-- Template data of the run on `danglingFsm`. -/
def danglingInput : Input :=
  mkInput danglingFsm "M" "" ["a"] [{ Name := "go", From := ["a"], To := "b" }]

/-- The list `sub` occurs in `s` as a contiguous run. -/
def containsChars : List Char → List Char → Bool
  | [], sub => sub.isEmpty
  | c :: rest, sub => sub.isPrefixOf (c :: rest) || containsChars rest sub

/-- The text `msg` contains the name `name`. -/
def mentions (msg name : String) : Bool := containsChars msg.data name.data

/-! ## Names made of words -/

/-- A word: a non-empty run of ASCII letters. -/
def IsWord (w : List Char) : Prop := w ≠ [] ∧ ∀ c ∈ w, isCased c = true

/-- The name made of the word `w` followed by the words of `rest`, each after
its separator. -/
def joinWords (w : List Char) (rest : List (Char × List Char)) : List Char :=
  w ++ rest.flatMap (fun p => p.1 :: p.2)

/-- A word with its first letter in upper case and its other letters in lower
case. -/
def capitalize : List Char → List Char
  | [] => []
  | c :: cs => titleRune c :: cs.map lowerRune

/-- Template data of the run on `lightFsm` that visits `red` first. -/
def lightInput : Input :=
  mkInput lightFsm "Light" "" ["red", "green"]
    [{ Name := "go", From := ["red"], To := "green" },
     { Name := "stop", From := ["green"], To := "red" }]

/-! ## Shape of the generated declarations -/

/-- The texts of `l` one after the other. -/
def concatAll : List String → String
  | [] => ""
  | a :: l => a ++ concatAll l

/-- The texts of `l` with `sep` between each two of them. -/
def joinWith (sep : String) : List String → String
  | [] => ""
  | [a] => a
  | a :: b :: l => a ++ sep ++ joinWith sep (b :: l)

/-- A constant declaration: symbol, type and string value. -/
def constLine (symbol typ value : String) : String :=
  symbol ++ " " ++ typ ++ " = \"" ++ value ++ "\""

/-- A transition rule of the constructor: the constant of the event, the
constants of the source states and the constant of the destination state. -/
def ruleText (name : String) (srcs : List String) (dst : String) : String :=
  "\n\t\t\t\t\x7b Name: " ++ name ++ ".String(), Src:[]string\x7b " ++
    joinWith ", " (srcs.map (fun c => c ++ ".String()")) ++ " \x7d, Dst: " ++ dst ++
    ".String() \x7d,  "

/-- The event names of the schema, one per declaration. -/
def eventNames (fsm : FSMData) : List String :=
  fsm.States.flatMap (fun kv => kv.2.On.map Prod.fst)

/-! ## Variants of a raw name and of the environment -/

/-- The name `s` with every underscore replaced by a space. -/
def spaced (s : String) : String := String.mk (replaceAll s.data '_' [' '])

/-- The call `os.Getenv(key)` for a variable whose value is `v`, or that is
not set (`none`): an unset variable reads as the empty string. -/
def getenv (v : Option String) : String := v.getD ""

/-! ## Auxiliary notions for the proofs -/

/-- The declarations `(state, event, destination)` in the order in which the
two nested loops meet them. -/
def decls (t : GoMap srcState) : List (String × String × String) :=
  t.flatMap (fun kv => kv.2.On.map (fun p => (kv.1, p.1, p.2)))

/-- The two loops as one loop over the declarations. -/
def foldDecls : List (String × String × String) → GoMap Event →
    Except String (GoMap Event)
  | [], events => .ok events
  | (k, ek, ev) :: rest, events =>
    match onEntry k events ek ev with
    | .error msg => .error msg
    | .ok events1 => foldDecls rest events1

/-- States that declare event `ek` among the declarations `P`, in order. -/
def srcOf (P : List (String × String × String)) (ek : String) : List String :=
  (P.filter (fun d => d.2.1 = ek)).map (fun d => d.1)

/-- Loop invariant: the map `m` holds, for the declarations `P` met so far,
one entry per event name, with the sources in the order met and the
destination common to all its declarations. -/
def Inv (P : List (String × String × String)) (m : GoMap Event) : Prop :=
  m.WF ∧ (∀ ek, m.get? ek = none ↔ ∀ d ∈ P, d.2.1 ≠ ek) ∧
    ∀ ek e, m.get? ek = some e →
      e.Name = ek ∧ e.From = srcOf P ek ∧ ∀ d ∈ P, d.2.1 = ek → d.2.2 = e.To

/-- The `states` map after the outer loop went through `t`, starting from `s`. -/
def statesFold (t : GoMap srcState) (s : GoMap Bool) : GoMap Bool :=
  t.foldl (fun acc kv => acc.set kv.1 true) s

/-! ## Lemmas on Go maps -/

theorem GoMap.get?_set {α : Type} (m : GoMap α) (k k1 : String) (v : α) :
    (m.set k v).get? k1 = if k = k1 then some v else m.get? k1 := by
  induction m with
  | nil => simp [GoMap.set, GoMap.get?]
  | cons hd tl ih =>
    obtain ⟨a, b⟩ := hd
    by_cases h : a = k
    · subst h
      by_cases h1 : a = k1 <;> simp [GoMap.set, GoMap.get?, h1]
    · simp only [GoMap.set, h, if_false, GoMap.get?]
      by_cases h1 : a = k1
      · subst h1
        have : ¬ k = a := fun e => h e.symm
        simp [this]
      · simp [h1, ih]

theorem GoMap.get?_eq_none {α : Type} (m : GoMap α) (k : String) :
    m.get? k = none ↔ k ∉ m.keys := by
  induction m with
  | nil => simp [GoMap.get?, GoMap.keys]
  | cons hd tl ih =>
    obtain ⟨a, b⟩ := hd
    by_cases h : a = k
    · subst h
      simp [GoMap.get?, GoMap.keys]
    · have h1 : ¬ k = a := fun e => h e.symm
      simp only [GoMap.get?, h, if_false, ih]
      simp [GoMap.keys, h1]

theorem GoMap.keys_set {α : Type} (m : GoMap α) (k : String) (v : α) :
    (m.set k v).keys = if k ∈ m.keys then m.keys else m.keys ++ [k] := by
  induction m with
  | nil => simp [GoMap.set, GoMap.keys]
  | cons hd tl ih =>
    obtain ⟨a, b⟩ := hd
    by_cases h : a = k
    · subst h
      simp [GoMap.set, GoMap.keys]
    · have h1 : ¬ k = a := fun e => h e.symm
      simp only [GoMap.set, h, if_false]
      simp only [GoMap.keys] at ih
      simp only [GoMap.keys, List.map_cons, List.mem_cons, h1, false_or, ih]
      split <;> simp

theorem GoMap.mem_keys_set {α : Type} (m : GoMap α) (k k1 : String) (v : α) :
    k1 ∈ (m.set k v).keys ↔ k1 = k ∨ k1 ∈ m.keys := by
  rw [GoMap.keys_set]
  split
  · constructor
    · exact Or.inr
    · rintro (h | h)
      · subst h; assumption
      · exact h
  · simp [or_comm]

theorem GoMap.WF_set {α : Type} (m : GoMap α) (k : String) (v : α) (h : m.WF) :
    (m.set k v).WF := by
  unfold GoMap.WF at *
  rw [GoMap.keys_set]
  split
  · exact h
  · rename_i hk
    exact List.Nodup.append h (List.nodup_singleton k) (by simpa using hk)

theorem GoMap.mem_iff_get? {α : Type} (m : GoMap α) (h : m.WF) (k : String) (v : α) :
    (k, v) ∈ m ↔ m.get? k = some v := by
  induction m with
  | nil => simp [GoMap.get?]
  | cons hd tl ih =>
    obtain ⟨a, b⟩ := hd
    have hnd : a ∉ GoMap.keys tl ∧ GoMap.WF tl := by
      simpa [GoMap.WF, GoMap.keys] using h
    by_cases hk : a = k
    · subst hk
      simp only [GoMap.get?, if_true, List.mem_cons, Prod.mk.injEq, true_and, Option.some.injEq]
      constructor
      · rintro (h1 | h1)
        · exact h1.symm
        · exact absurd (List.mem_map_of_mem Prod.fst h1) hnd.1
      · intro h1
        exact Or.inl h1.symm
    · have hk1 : ¬ k = a := fun e => hk e.symm
      simp only [GoMap.get?, hk, if_false, List.mem_cons, Prod.mk.injEq, hk1, false_and, false_or]
      exact ih hnd.2

/-! ## The loop invariant -/

theorem srcOf_append (P Q : List (String × String × String)) (ek : String) :
    srcOf (P ++ Q) ek = srcOf P ek ++ srcOf Q ek := by
  simp [srcOf]

theorem srcOf_eq_nil (P : List (String × String × String)) (ek : String)
    (h : ∀ d ∈ P, d.2.1 ≠ ek) : srcOf P ek = [] := by
  unfold srcOf
  rw [List.map_eq_nil_iff, List.filter_eq_nil_iff]
  intro d hd
  simpa using h d hd

theorem mem_srcOf (P : List (String × String × String)) (ek k : String) :
    k ∈ srcOf P ek ↔ ∃ ev, (k, ek, ev) ∈ P := by
  unfold srcOf
  simp only [List.mem_map, List.mem_filter, decide_eq_true_eq]
  constructor
  · rintro ⟨⟨a, b, c⟩, ⟨h1, h2⟩, h3⟩
    simp only at h2 h3
    subst h2 h3
    exact ⟨c, h1⟩
  · rintro ⟨ev, h⟩
    exact ⟨(k, ek, ev), ⟨h, rfl⟩, rfl⟩

theorem Inv_nil : Inv [] [] := by
  refine ⟨?_, ?_, ?_⟩
  · simp [GoMap.WF, GoMap.keys]
  · intro ek
    simp [GoMap.get?]
  · intro ek e h
    simp [GoMap.get?] at h

theorem onEntry_ok {P : List (String × String × String)} {m m1 : GoMap Event}
    {k ek ev : String} (hI : Inv P m) (h : onEntry k m ek ev = .ok m1) :
    Inv (P ++ [(k, ek, ev)]) m1 := by
  obtain ⟨hwf, hnone, hsome⟩ := hI
  unfold onEntry at h
  cases hg : m.get? ek with
  | none =>
    rw [hg] at h
    simp only [Except.ok.injEq] at h
    subst h
    have hno := (hnone ek).1 hg
    refine ⟨GoMap.WF_set _ _ _ hwf, ?_, ?_⟩
    · intro ek1
      rw [GoMap.get?_set]
      by_cases hk : ek = ek1
      · subst hk
        simp only [if_true]
        constructor
        · intro h1
          cases h1
        · intro h1
          exact absurd rfl (h1 (k, ek, ev) (by simp))
      · simp only [hk, if_false, hnone ek1, List.mem_append, List.mem_singleton]
        constructor
        · rintro h1 d (hd | hd)
          · exact h1 d hd
          · subst hd
            exact hk
        · intro h1 d hd
          exact h1 d (Or.inl hd)
    · intro ek1 e
      rw [GoMap.get?_set]
      by_cases hk : ek = ek1
      · subst hk
        simp only [if_true, Option.some.injEq]
        intro he
        subst he
        refine ⟨rfl, ?_, ?_⟩
        · rw [srcOf_append, srcOf_eq_nil P ek hno]
          simp [srcOf]
        · intro d hd hdk
          rcases List.mem_append.1 hd with hd | hd
          · exact absurd hdk (hno d hd)
          · simp only [List.mem_singleton] at hd
            subst hd
            rfl
      · simp only [hk, if_false]
        intro he
        obtain ⟨h1, h2, h3⟩ := hsome ek1 e he
        refine ⟨h1, ?_, ?_⟩
        · rw [srcOf_append, h2]
          simp [srcOf, hk]
        · intro d hd hdk
          rcases List.mem_append.1 hd with hd | hd
          · exact h3 d hd hdk
          · simp only [List.mem_singleton] at hd
            subst hd
            exact absurd hdk hk
  | some e0 =>
    rw [hg] at h
    obtain ⟨h01, h02, h03⟩ := hsome ek e0 hg
    by_cases hev : ev = e0.To
    · simp only [hev, ne_eq, not_true_eq_false, if_false, Except.ok.injEq] at h
      subst h
      refine ⟨GoMap.WF_set _ _ _ hwf, ?_, ?_⟩
      · intro ek1
        rw [GoMap.get?_set]
        by_cases hk : ek = ek1
        · subst hk
          simp only [if_true]
          constructor
          · intro h1
            cases h1
          · intro h1
            exact absurd rfl (h1 (k, ek, ev) (by simp))
        · simp only [hk, if_false, hnone ek1, List.mem_append, List.mem_singleton]
          constructor
          · rintro h1 d (hd | hd)
            · exact h1 d hd
            · subst hd
              exact hk
          · intro h1 d hd
            exact h1 d (Or.inl hd)
      · intro ek1 e
        rw [GoMap.get?_set]
        by_cases hk : ek = ek1
        · subst hk
          simp only [if_true, Option.some.injEq]
          intro he
          subst he
          refine ⟨h01, ?_, ?_⟩
          · rw [srcOf_append, ← h02]
            simp [srcOf]
          · intro d hd hdk
            rcases List.mem_append.1 hd with hd | hd
            · exact h03 d hd hdk
            · simp only [List.mem_singleton] at hd
              subst hd
              exact hev
        · simp only [hk, if_false]
          intro he
          obtain ⟨h1, h2, h3⟩ := hsome ek1 e he
          refine ⟨h1, ?_, ?_⟩
          · rw [srcOf_append, h2]
            simp [srcOf, hk]
          · intro d hd hdk
            rcases List.mem_append.1 hd with hd | hd
            · exact h3 d hd hdk
            · simp only [List.mem_singleton] at hd
              subst hd
              exact absurd hdk hk
    · simp [hev] at h

theorem onEntry_error {P : List (String × String × String)} {m : GoMap Event}
    {k ek ev msg : String} (hI : Inv P m) (h : onEntry k m ek ev = .error msg) :
    ∃ d ∈ P, d.2.1 = ek ∧ d.2.2 ≠ ev ∧ msg = fatalMsg k ev d.2.2 := by
  obtain ⟨_, hnone, hsome⟩ := hI
  unfold onEntry at h
  cases hg : m.get? ek with
  | none =>
    rw [hg] at h
    simp at h
  | some e0 =>
    rw [hg] at h
    obtain ⟨_, _, h03⟩ := hsome ek e0 hg
    have hex : ∃ d ∈ P, d.2.1 = ek := by
      by_contra hc
      have : m.get? ek = none := (hnone ek).2 (fun d hd hdk => hc ⟨d, hd, hdk⟩)
      rw [hg] at this
      cases this
    obtain ⟨d, hd, hdk⟩ := hex
    by_cases hev : ev = e0.To
    · simp [hev] at h
    · simp only [ne_eq, hev, not_false_eq_true, if_true, Except.error.injEq] at h
      refine ⟨d, hd, hdk, ?_, ?_⟩
      · rw [h03 d hd hdk]
        exact fun e => hev e.symm
      · rw [h03 d hd hdk]
        exact h.symm

theorem foldDecls_ok {L P : List (String × String × String)} {m m1 : GoMap Event}
    (hI : Inv P m) (h : foldDecls L m = .ok m1) : Inv (P ++ L) m1 := by
  induction L generalizing P m with
  | nil =>
    simp only [foldDecls, Except.ok.injEq] at h
    subst h
    simpa using hI
  | cons d L ih =>
    obtain ⟨k, ek, ev⟩ := d
    simp only [foldDecls] at h
    cases hs : onEntry k m ek ev with
    | error msg =>
      rw [hs] at h
      cases h
    | ok m2 =>
      rw [hs] at h
      have := ih (onEntry_ok hI hs) h
      simpa using this

theorem foldDecls_error {L P : List (String × String × String)} {m : GoMap Event}
    {msg : String} (hI : Inv P m) (h : foldDecls L m = .error msg) :
    ∃ d1 ∈ P ++ L, ∃ d2 ∈ P ++ L, d1.2.1 = d2.2.1 ∧ d1.2.2 ≠ d2.2.2 ∧
      msg = fatalMsg d2.1 d2.2.2 d1.2.2 := by
  induction L generalizing P m with
  | nil => simp [foldDecls] at h
  | cons d L ih =>
    obtain ⟨k, ek, ev⟩ := d
    simp only [foldDecls] at h
    cases hs : onEntry k m ek ev with
    | error msg1 =>
      rw [hs] at h
      simp only [Except.error.injEq] at h
      subst h
      obtain ⟨d1, hd1, h1, h2, h3⟩ := onEntry_error hI hs
      exact ⟨d1, List.mem_append_left _ hd1, (k, ek, ev),
        List.mem_append_right _ (List.mem_cons_self _ _), h1, h2, h3⟩
    | ok m2 =>
      rw [hs] at h
      have := ih (onEntry_ok hI hs) h
      simpa using this

/-! ## The two loops as one loop over the declarations -/

theorem onLoop_eq_foldDecls (k : String) (tbl : List (String × String)) (m : GoMap Event) :
    onLoop k tbl m = foldDecls (tbl.map (fun p => (k, p.1, p.2))) m := by
  induction tbl generalizing m with
  | nil => rfl
  | cons p tbl ih =>
    obtain ⟨ek, ev⟩ := p
    simp only [onLoop, List.map_cons, foldDecls]
    cases onEntry k m ek ev with
    | error msg => rfl
    | ok m1 => exact ih m1

theorem foldDecls_append (A B : List (String × String × String)) (m : GoMap Event) :
    foldDecls (A ++ B) m =
      match foldDecls A m with
      | .error msg => .error msg
      | .ok m1 => foldDecls B m1 := by
  induction A generalizing m with
  | nil => rfl
  | cons d A ih =>
    obtain ⟨k, ek, ev⟩ := d
    simp only [List.cons_append, foldDecls]
    cases onEntry k m ek ev with
    | error msg => rfl
    | ok m1 => exact ih m1

theorem statesLoop_eq (t : GoMap srcState) (s : GoMap Bool) (m : GoMap Event) :
    statesLoop t s m =
      match foldDecls (decls t) m with
      | .error msg => .error msg
      | .ok m1 => .ok (statesFold t s, m1) := by
  induction t generalizing s m with
  | nil => rfl
  | cons kv t ih =>
    obtain ⟨k, v⟩ := kv
    have hd : decls ((k, v) :: t) = v.On.map (fun p => (k, p.1, p.2)) ++ decls t := by
      simp [decls]
    rw [hd, foldDecls_append, ← onLoop_eq_foldDecls]
    simp only [statesLoop]
    cases onLoop k v.On m with
    | error msg => rfl
    | ok m1 =>
      simp only
      rw [ih]
      rfl

theorem buildModel_ok {t : GoMap srcState} {s : GoMap Bool} {m : GoMap Event}
    (h : buildModel t = .ok (s, m)) : Inv (decls t) m ∧ s = statesFold t [] := by
  unfold buildModel at h
  rw [statesLoop_eq] at h
  cases hf : foldDecls (decls t) [] with
  | error msg =>
    rw [hf] at h
    cases h
  | ok m1 =>
    rw [hf] at h
    simp only [Except.ok.injEq, Prod.mk.injEq] at h
    obtain ⟨h1, h2⟩ := h
    subst h2
    have := foldDecls_ok Inv_nil hf
    exact ⟨by simpa using this, h1.symm⟩

theorem buildModel_error {t : GoMap srcState} {msg : String}
    (h : buildModel t = .error msg) :
    ∃ d1 ∈ decls t, ∃ d2 ∈ decls t, d1.2.1 = d2.2.1 ∧ d1.2.2 ≠ d2.2.2 ∧
      msg = fatalMsg d2.1 d2.2.2 d1.2.2 := by
  unfold buildModel at h
  rw [statesLoop_eq] at h
  cases hf : foldDecls (decls t) [] with
  | error msg1 =>
    rw [hf] at h
    simp only [Except.error.injEq] at h
    subst h
    have := foldDecls_error Inv_nil hf
    simpa using this
  | ok m1 =>
    rw [hf] at h
    cases h

theorem buildModel_total {t : GoMap srcState}
    (h : ∀ d1 ∈ decls t, ∀ d2 ∈ decls t, d1.2.1 = d2.2.1 → d1.2.2 = d2.2.2) :
    ∃ s m, buildModel t = .ok (s, m) := by
  cases hb : buildModel t with
  | error msg =>
    obtain ⟨d1, h1, d2, h2, h3, h4, _⟩ := buildModel_error hb
    exact absurd (h d1 h1 d2 h2 h3) h4
  | ok r => exact ⟨r.1, r.2, rfl⟩

/-! ## The `states` map -/

theorem statesFold_WF (t : GoMap srcState) (s : GoMap Bool) (h : s.WF) :
    (statesFold t s).WF := by
  induction t generalizing s with
  | nil => exact h
  | cons kv t ih => exact ih _ (GoMap.WF_set _ _ _ h)

theorem mem_keys_statesFold (t : GoMap srcState) (s : GoMap Bool) (k : String) :
    k ∈ (statesFold t s).keys ↔ k ∈ s.keys ∨ k ∈ t.keys := by
  induction t generalizing s with
  | nil => simp [statesFold, GoMap.keys]
  | cons kv t ih =>
    have := ih (s.set kv.1 true)
    simp only [statesFold, List.foldl_cons] at this ⊢
    rw [this, GoMap.mem_keys_set]
    simp only [GoMap.keys, List.map_cons, List.mem_cons]
    tauto

/-! ## Traversals -/

theorem mem_decls (m : GoMap srcState) (k ek ev : String) :
    (k, ek, ev) ∈ decls m ↔ ∃ st, (k, st) ∈ m ∧ (ek, ev) ∈ st.On := by
  unfold decls
  simp only [List.mem_flatMap, List.mem_map, Prod.mk.injEq]
  constructor
  · rintro ⟨⟨k1, st⟩, h1, ⟨ek1, ev1⟩, h2, h3, h4, h5⟩
    simp only at h3 h4 h5
    subst h3 h4 h5
    exact ⟨st, h1, h2⟩
  · rintro ⟨st, h1, h2⟩
    exact ⟨(k, st), h1, (ek, ev), h2, rfl, rfl, rfl⟩

theorem decls_cons (kv : String × srcState) (m : GoMap srcState) :
    decls (kv :: m) = kv.2.On.map (fun p => (kv.1, p.1, p.2)) ++ decls m := by
  simp [decls]

theorem decls_perm_of_forall₂ {m m1 : GoMap srcState}
    (h : List.Forall₂ (fun a b => a.1 = b.1 ∧ a.2.Typ = b.2.Typ ∧ b.2.On.Perm a.2.On) m m1) :
    (decls m1).Perm (decls m) := by
  induction h with
  | nil => exact List.Perm.refl _
  | cons hab _ ih =>
    rw [decls_cons, decls_cons, ← hab.1]
    exact List.Perm.append (List.Perm.map _ hab.2.2) ih

theorem keys_eq_of_forall₂ {m m1 : GoMap srcState}
    (h : List.Forall₂ (fun a b => a.1 = b.1 ∧ a.2.Typ = b.2.Typ ∧ b.2.On.Perm a.2.On) m m1) :
    m1.keys = m.keys := by
  induction h with
  | nil => rfl
  | cons hab _ ih =>
    simp only [GoMap.keys, List.map_cons] at ih ⊢
    rw [ih, hab.1]

theorem Traversal.decls_perm {m t : GoMap srcState} (h : Traversal m t) :
    (decls t).Perm (decls m) := by
  obtain ⟨m1, h1, h2⟩ := h
  exact (List.Perm.flatMap_right _ h2).trans (decls_perm_of_forall₂ h1)

theorem Traversal.keys_perm {m t : GoMap srcState} (h : Traversal m t) :
    t.keys.Perm m.keys := by
  obtain ⟨m1, h1, h2⟩ := h
  rw [← keys_eq_of_forall₂ h1]
  exact List.Perm.map _ h2

theorem Traversal.refl (m : GoMap srcState) : Traversal m m := by
  refine ⟨m, ?_, List.Perm.refl _⟩
  induction m with
  | nil => exact List.Forall₂.nil
  | cons a l ih => exact List.Forall₂.cons ⟨rfl, rfl, List.Perm.refl _⟩ ih

theorem Declares_iff (fsm : FSMData) (k ek ev : String) :
    Declares fsm k ek ev ↔ (k, ek, ev) ∈ decls fsm.States := by
  rw [mem_decls]
  rfl

theorem Traversal.mem_decls_iff {fsm : FSMData} {t : GoMap srcState}
    (h : Traversal fsm.States t) (k ek ev : String) :
    (k, ek, ev) ∈ decls t ↔ Declares fsm k ek ev := by
  rw [Declares_iff]
  exact h.decls_perm.mem_iff

/-! ## Sources of an event -/

theorem decls_pairs_nodup (m : GoMap srcState) (h1 : m.WF)
    (h2 : ∀ k st, (k, st) ∈ m → st.On.WF) :
    ((decls m).map (fun d => (d.1, d.2.1))).Nodup := by
  induction m with
  | nil => simp [decls]
  | cons kv m ih =>
    obtain ⟨k, st⟩ := kv
    have hk : k ∉ GoMap.keys m ∧ GoMap.WF m := by
      simpa [GoMap.WF, GoMap.keys] using h1
    rw [decls_cons, List.map_append, List.map_map]
    refine List.Nodup.append ?_ (ih hk.2 (fun k1 st1 hm => h2 k1 st1 (List.mem_cons_of_mem _ hm))) ?_
    · have hon : (st.On.map Prod.fst).Nodup := h2 k st (List.mem_cons_self _ _)
      have := List.Nodup.map (f := fun ek : String => (k, ek))
        (fun a b hab => by simpa using hab) hon
      simpa [List.map_map, Function.comp_def] using this
    · intro x hx1 hx2
      simp only [List.mem_map, Function.comp_apply] at hx1 hx2
      obtain ⟨p, _, hp⟩ := hx1
      obtain ⟨⟨k1, ek1, ev1⟩, hd, hd1⟩ := hx2
      rw [mem_decls] at hd
      obtain ⟨st1, hst1, _⟩ := hd
      apply hk.1
      have : k1 = k := by
        rw [← hp] at hd1
        simpa using congrArg Prod.fst hd1
      subst this
      exact List.mem_map_of_mem Prod.fst hst1

theorem srcOf_nodup (P : List (String × String × String)) (ek : String)
    (h : (P.map (fun d => (d.1, d.2.1))).Nodup) : (srcOf P ek).Nodup := by
  have h1 : ((P.filter (fun d => d.2.1 = ek)).map (fun d => (d.1, d.2.1))).Nodup :=
    List.Nodup.sublist (List.Sublist.map _ (List.filter_sublist _)) h
  have h2 : (P.filter (fun d => d.2.1 = ek)).map (fun d => (d.1, d.2.1)) =
      (srcOf P ek).map (fun k => (k, ek)) := by
    unfold srcOf
    rw [List.map_map]
    apply List.map_congr_left
    intro d hd
    have := (List.mem_filter.1 hd).2
    simp only [decide_eq_true_eq] at this
    simp [this]
  rw [h2] at h1
  exact List.Nodup.of_map _ h1

theorem Traversal.sources_nodup {fsm : FSMData} {t : GoMap srcState}
    (h : Traversal fsm.States t) (hwf : fsm.WF) (ek : String) :
    (srcOf (decls t) ek).Nodup := by
  apply Statify.srcOf_nodup
  exact ((List.Perm.map _ h.decls_perm).nodup_iff).2 (decls_pairs_nodup _ hwf.1 hwf.2)

/-! ## Model construction: failure and success -/

/-- C1: a schema in which two different states declare the same event with two
different destinations never gets through model construction: on every
traversal of the states and of their tables the loop stops in the fatal
message of line 96, printed with two different destinations, and every outcome
of the run is that failure, so that no file is written. -/
theorem ambiguous_schema_never_builds (fsm : FSMData) (k1 k2 ek d1 d2 : String)
    (_hk : k1 ≠ k2) (h1 : Declares fsm k1 ek d1) (h2 : Declares fsm k2 ek d2)
    (hd : d1 ≠ d2) :
    (∀ visit, Traversal fsm.States visit →
        ∃ a b c, b ≠ c ∧ buildModel visit = .error (fatalMsg a b c)) ∧
      ∀ format arg1 arg2 gopackage o,
        MainRun format arg1 arg2 gopackage fsm o → ∃ msg, o = Outcome.fatal msg := by
  have hfail : ∀ visit, Traversal fsm.States visit →
      ∀ states events, buildModel visit ≠ .ok (states, events) := by
    intro visit htr states events hb
    obtain ⟨⟨_, hnone, hsome⟩, _⟩ := buildModel_ok hb
    have m1 := (htr.mem_decls_iff k1 ek d1).2 h1
    have m2 := (htr.mem_decls_iff k2 ek d2).2 h2
    cases hg : events.get? ek with
    | none => exact (hnone ek).1 hg _ m1 rfl
    | some e =>
      obtain ⟨_, _, h3⟩ := hsome ek e hg
      exact hd ((h3 _ m1 rfl).trans (h3 _ m2 rfl).symm)
  constructor
  · intro visit htr
    cases hb : buildModel visit with
    | error msg =>
      obtain ⟨x1, _, x2, _, _, h4, h5⟩ := buildModel_error hb
      exact ⟨x2.1, x2.2.2, x1.2.2, fun e => h4 e.symm, by rw [h5]⟩
    | ok r => exact absurd hb (hfail visit htr r.1 r.2)
  · intro format arg1 arg2 gopackage o ho
    cases o with
    | fatal msg => exact ⟨msg, rfl⟩
    | written path content =>
      obtain ⟨d, ⟨visit, states, events, _, _, htr, hb, _⟩, _⟩ := ho
      exact absurd hb (hfail visit htr states events)

/-- Witness of C1: the failure scenario of the schema `conflictFsm`. -/
theorem ambiguous_schema_never_builds_witness :
    ("red" ≠ "yellow" ∧ Declares conflictFsm "red" "go" "green" ∧
      Declares conflictFsm "yellow" "go" "blue" ∧ "green" ≠ "blue") ∧
    ((∀ visit, Traversal conflictFsm.States visit →
        ∃ a b c, b ≠ c ∧ buildModel visit = .error (fatalMsg a b c)) ∧
      ∀ format arg1 arg2 gopackage o,
        MainRun format arg1 arg2 gopackage conflictFsm o → ∃ msg, o = Outcome.fatal msg) :=
  have a1 : "red" ≠ "yellow" := by decide
  have a2 : Declares conflictFsm "red" "go" "green" :=
    ⟨{ On := [("go", "green")], Typ := "" }, by simp [conflictFsm], by simp⟩
  have a3 : Declares conflictFsm "yellow" "go" "blue" :=
    ⟨{ On := [("go", "blue")], Typ := "" }, by simp [conflictFsm], by simp⟩
  have a4 : "green" ≠ "blue" := by decide
  ⟨⟨a1, a2, a3, a4⟩,
    ambiguous_schema_never_builds conflictFsm "red" "yellow" "go" "green" "blue" a1 a2 a3 a4⟩

/-- C2: on a schema in which no event is declared with two different
destinations, model construction gets through on every traversal, and every
entry of the `events` map it returns is stored under the event's name, has the
destination declared for that event, and has as sources exactly the states
whose table declares the event, each of them once. -/
theorem unambiguous_schema_events (fsm : FSMData) (hwf : fsm.WF) (hu : Unambiguous fsm) :
    ∀ visit, Traversal fsm.States visit →
      ∃ states events, buildModel visit = .ok (states, events) ∧
        ∀ key e, (key, e) ∈ events →
          e.Name = key ∧ (∃ k, Declares fsm k e.Name e.To) ∧
            (∀ k ev, Declares fsm k e.Name ev → ev = e.To) ∧
            (∀ k, k ∈ e.From ↔ ∃ ev, Declares fsm k e.Name ev) ∧
            ∀ k ∈ e.From, e.From.count k = 1 := by
  intro visit htr
  have hcons : ∀ x1 ∈ decls visit, ∀ x2 ∈ decls visit, x1.2.1 = x2.2.1 → x1.2.2 = x2.2.2 := by
    rintro ⟨a1, b1, c1⟩ hx1 ⟨a2, b2, c2⟩ hx2 hb
    simp only at hb
    subst hb
    exact hu a1 a2 b1 c1 c2 ((htr.mem_decls_iff _ _ _).1 hx1) ((htr.mem_decls_iff _ _ _).1 hx2)
  obtain ⟨states, events, hb⟩ := buildModel_total hcons
  refine ⟨states, events, hb, ?_⟩
  intro key e hmem
  obtain ⟨⟨hwfm, hnone, hsome⟩, _⟩ := buildModel_ok hb
  have hg : events.get? key = some e := (GoMap.mem_iff_get? events hwfm key e).1 hmem
  obtain ⟨hname, hfrom, hto⟩ := hsome key e hg
  subst hname
  have hex : ∃ x ∈ decls visit, x.2.1 = e.Name := by
    by_contra hc
    have : events.get? e.Name = none :=
      (hnone e.Name).2 (fun x hx hxk => hc ⟨x, hx, hxk⟩)
    rw [hg] at this
    cases this
  obtain ⟨⟨a, b, c⟩, hx, hxk⟩ := hex
  simp only at hxk
  subst hxk
  have hc : c = e.To := hto _ hx rfl
  subst hc
  refine ⟨rfl, ⟨a, (htr.mem_decls_iff _ _ _).1 hx⟩, ?_, ?_, ?_⟩
  · intro k ev hdec
    exact hto _ ((htr.mem_decls_iff _ _ _).2 hdec) rfl
  · intro k
    rw [hfrom, mem_srcOf]
    constructor
    · rintro ⟨ev, hev⟩
      exact ⟨ev, (htr.mem_decls_iff _ _ _).1 hev⟩
    · rintro ⟨ev, hev⟩
      exact ⟨ev, (htr.mem_decls_iff _ _ _).2 hev⟩
  · intro k hk
    have hnd : e.From.Nodup := by
      rw [hfrom]
      exact htr.sources_nodup hwf _
    exact List.count_eq_one_of_mem hnd hk

theorem mergeFsm_WF : mergeFsm.WF := by
  refine ⟨by simp [mergeFsm, GoMap.WF, GoMap.keys], ?_⟩
  intro k st h
  simp only [mergeFsm, List.mem_cons, Prod.mk.injEq, List.mem_nil_iff, or_false] at h
  rcases h with ⟨_, h⟩ | ⟨_, h⟩ | ⟨_, h⟩ <;> subst h <;> simp [GoMap.WF, GoMap.keys]

theorem mergeFsm_dest {k ek ev : String} (h : Declares mergeFsm k ek ev) : ev = "C" := by
  obtain ⟨st, h1, h2⟩ := h
  simp only [mergeFsm, List.mem_cons, Prod.mk.injEq, List.mem_nil_iff, or_false] at h1
  rcases h1 with ⟨_, h⟩ | ⟨_, h⟩ | ⟨_, h⟩ <;> subst h <;> simp at h2 <;> exact h2.2

theorem mergeFsm_unambiguous : Unambiguous mergeFsm := by
  intro k1 k2 ek d1 d2 h1 h2
  rw [mergeFsm_dest h1, mergeFsm_dest h2]

/-- Witness of C2: the merge scenario `mergeFsm`, whose traversal in the
written order gives the one event `go` with sources `A`, `B` and destination
`C`. -/
theorem unambiguous_schema_events_witness :
    (mergeFsm.WF ∧ Unambiguous mergeFsm) ∧
    (∀ visit, Traversal mergeFsm.States visit →
      ∃ states events, buildModel visit = .ok (states, events) ∧
        ∀ key e, (key, e) ∈ events →
          e.Name = key ∧ (∃ k, Declares mergeFsm k e.Name e.To) ∧
            (∀ k ev, Declares mergeFsm k e.Name ev → ev = e.To) ∧
            (∀ k, k ∈ e.From ↔ ∃ ev, Declares mergeFsm k e.Name ev) ∧
            ∀ k ∈ e.From, e.From.count k = 1) ∧
    buildModel mergeFsm.States =
      .ok ([("A", true), ("B", true), ("C", true)],
           [("go", { Name := "go", From := ["A", "B"], To := "C" })]) :=
  ⟨⟨mergeFsm_WF, mergeFsm_unambiguous⟩,
    unambiguous_schema_events mergeFsm mergeFsm_WF mergeFsm_unambiguous, rfl⟩

/-! ## What a run hands to the template -/

theorem values_names_eq_keys (m : GoMap Event)
    (h : ∀ key e, (key, e) ∈ m → e.Name = key) :
    m.values.map Event.Name = m.keys := by
  unfold GoMap.values GoMap.keys
  rw [List.map_map]
  apply List.map_congr_left
  rintro ⟨key, e⟩ hm
  exact h key e hm

/-- The facts on the template data of a run that the claims rest on. -/
theorem InputOf.spec {fsm : FSMData} {typeName gopackage : String} {d : Input}
    (h : InputOf fsm typeName gopackage d) :
    ∃ visit sOrd, Traversal fsm.States visit ∧
      sOrd.Nodup ∧ (∀ k, k ∈ sOrd ↔ k ∈ fsm.States.keys) ∧
      d.States = statesList sOrd fsm.Initial ∧
      d.InitialState = { Name := fsm.Initial } ∧
      d.Package = packageName gopackage ∧ d.TypeName = typeName ∧
      (d.Events.map Event.Name).Nodup ∧
      (∀ ek, ek ∈ d.Events.map Event.Name ↔ ∃ x ∈ decls visit, x.2.1 = ek) ∧
      ∀ e ∈ d.Events, e.From = srcOf (decls visit) e.Name ∧
        ∀ x ∈ decls visit, x.2.1 = e.Name → x.2.2 = e.To := by
  obtain ⟨visit, states, events, sOrd, eOrd, htr, hb, hs, he, hd⟩ := h
  obtain ⟨⟨hwfm, hnone, hsome⟩, hst⟩ := buildModel_ok hb
  have hkey : ∀ key e, (key, e) ∈ events → e.Name = key := fun key e hm =>
    (hsome key e ((GoMap.mem_iff_get? events hwfm key e).1 hm)).1
  have hnames : (eOrd.map Event.Name).Perm events.keys := by
    rw [← values_names_eq_keys events hkey]
    exact List.Perm.map _ he
  subst hd
  refine ⟨visit, sOrd, htr, ?_, ?_, rfl, rfl, rfl, rfl, ?_, ?_, ?_⟩
  · rw [hs.nodup_iff, hst]
    exact statesFold_WF visit [] (by simp [GoMap.WF, GoMap.keys])
  · intro k
    rw [hs.mem_iff, hst, mem_keys_statesFold, ← htr.keys_perm.mem_iff]
    simp [GoMap.keys]
  · exact hnames.nodup_iff.2 hwfm
  · intro ek
    show ek ∈ eOrd.map Event.Name ↔ _
    rw [hnames.mem_iff]
    constructor
    · intro hk
      by_contra hc
      have : events.get? ek = none :=
        (hnone ek).2 (fun x hx hxk => hc ⟨x, hx, hxk⟩)
      exact ((GoMap.get?_eq_none events ek).1 this) hk
    · rintro ⟨x, hx, hxk⟩
      by_contra hc
      exact (hnone ek).1 ((GoMap.get?_eq_none events ek).2 hc) x hx hxk
  · intro e hmem
    have hmem1 : e ∈ events.values := he.mem_iff.1 hmem
    obtain ⟨⟨key, e1⟩, hm, rfl⟩ := List.mem_map.1 hmem1
    have hg := (GoMap.mem_iff_get? events hwfm key e1).1 hm
    obtain ⟨h1, h2, h3⟩ := hsome key e1 hg
    subst h1
    exact ⟨h2, h3⟩

theorem srcOf_perm {P Q : List (String × String × String)} (h : P.Perm Q) (ek : String) :
    (srcOf P ek).Perm (srcOf Q ek) :=
  List.Perm.map _ (List.Perm.filter _ h)

/-! ## Determinism -/

theorem mergeFsm_swapped :
    Traversal mergeFsm.States
      [("B", { On := [("go", "C")], Typ := "" }), ("A", { On := [("go", "C")], Typ := "" }),
       ("C", { On := [], Typ := "" })] :=
  ⟨mergeFsm.States,
    List.Forall₂.cons ⟨rfl, rfl, List.Perm.refl _⟩
      (List.Forall₂.cons ⟨rfl, rfl, List.Perm.refl _⟩
        (List.Forall₂.cons ⟨rfl, rfl, List.Perm.refl _⟩ List.Forall₂.nil)),
    List.Perm.swap _ _ _⟩

theorem mergeInputAB_run : InputOf mergeFsm "Merge" "" mergeInputAB :=
  ⟨mergeFsm.States, [("A", true), ("B", true), ("C", true)],
    [("go", { Name := "go", From := ["A", "B"], To := "C" })], _, _,
    Traversal.refl _, rfl, List.Perm.refl _, List.Perm.refl _, rfl⟩

theorem mergeInputBA_run : InputOf mergeFsm "Merge" "" mergeInputBA :=
  ⟨_, [("B", true), ("A", true), ("C", true)],
    [("go", { Name := "go", From := ["B", "A"], To := "C" })], _, _,
    mergeFsm_swapped, rfl,
    (List.Perm.cons _ (List.Perm.swap _ _ _)).trans
      ((List.Perm.swap _ _ _).trans (List.Perm.cons _ (List.Perm.swap _ _ _))),
    List.Perm.refl _, rfl⟩

set_option maxRecDepth 100000 in
/-- Counterexample to C3: on the schema `mergeFsm`, with type name `Merge`
and no package override, the run that visits state `A` before `B` and the run
that visits `B` before `A` hand the template events whose source lists are in
different orders, and the two generated texts differ. -/
theorem order_changes_generated_text :
    InputOf mergeFsm "Merge" "" mergeInputAB ∧ InputOf mergeFsm "Merge" "" mergeInputBA ∧
      render mergeInputAB ≠ render mergeInputBA ∧
      MainRun (fun src => src) "merge.json" "Merge" "" mergeFsm
        (Outcome.written "merge.go" (render mergeInputAB)) ∧
      MainRun (fun src => src) "merge.json" "Merge" "" mergeFsm
        (Outcome.written "merge.go" (render mergeInputBA)) :=
  ⟨mergeInputAB_run, mergeInputBA_run, by decide,
    ⟨_, mergeInputAB_run, by decide, rfl⟩, ⟨_, mergeInputBA_run, by decide, rfl⟩⟩

/-- C3, amended: two runs on the same schema and configuration hand the
template the same package, type name and initial state, lists of ordinary
states that are permutations of each other, and lists of events that hold the
same event names, each once, where the two events of one name have the same
destination and source lists that are permutations of each other. -/
theorem runs_agree_up_to_order (fsm : FSMData) (typeName gopackage : String)
    (d1 d2 : Input) (h1 : InputOf fsm typeName gopackage d1)
    (h2 : InputOf fsm typeName gopackage d2) :
    d1.Package = d2.Package ∧ d1.TypeName = d2.TypeName ∧
      d1.InitialState = d2.InitialState ∧ d1.States.Perm d2.States ∧
      (d1.Events.map Event.Name).Nodup ∧
      (d1.Events.map Event.Name).Perm (d2.Events.map Event.Name) ∧
      ∀ e1 ∈ d1.Events, ∀ e2 ∈ d2.Events, e1.Name = e2.Name →
        e1.To = e2.To ∧ e1.From.Perm e2.From := by
  obtain ⟨v1, s1, ht1, hn1, hm1, hs1, hi1, hp1, hy1, hen1, hem1, hev1⟩ := h1.spec
  obtain ⟨v2, s2, ht2, hn2, hm2, hs2, hi2, hp2, hy2, hen2, hem2, hev2⟩ := h2.spec
  have hdp : (decls v1).Perm (decls v2) := ht1.decls_perm.trans ht2.decls_perm.symm
  refine ⟨by rw [hp1, hp2], by rw [hy1, hy2], by rw [hi1, hi2], ?_, hen1, ?_, ?_⟩
  · rw [hs1, hs2]
    have : s1.Perm s2 :=
      (List.perm_ext_iff_of_nodup hn1 hn2).2 (fun k => by rw [hm1, hm2])
    exact List.Perm.map _ (List.Perm.filter _ this)
  · refine (List.perm_ext_iff_of_nodup hen1 hen2).2 (fun ek => ?_)
    rw [hem1, hem2]
    constructor
    · rintro ⟨x, hx, hxk⟩
      exact ⟨x, hdp.mem_iff.1 hx, hxk⟩
    · rintro ⟨x, hx, hxk⟩
      exact ⟨x, hdp.mem_iff.2 hx, hxk⟩
  · intro e1 he1 e2 he2 hname
    obtain ⟨hf1, hto1⟩ := hev1 e1 he1
    obtain ⟨hf2, hto2⟩ := hev2 e2 he2
    obtain ⟨x, hx, hxk⟩ := (hem1 e1.Name).1 (List.mem_map_of_mem _ he1)
    refine ⟨?_, ?_⟩
    · rw [← hto1 x hx hxk, ← hto2 x (hdp.mem_iff.1 hx) (hxk.trans hname)]
    · rw [hf1, hf2, ← hname]
      exact srcOf_perm hdp _

/-- Witness of C3, amended: the two runs on `mergeFsm` that visit `A` and `B`
in the two possible orders. -/
theorem runs_agree_up_to_order_witness :
    (InputOf mergeFsm "Merge" "" mergeInputAB ∧ InputOf mergeFsm "Merge" "" mergeInputBA) ∧
    (mergeInputAB.Package = mergeInputBA.Package ∧
      mergeInputAB.TypeName = mergeInputBA.TypeName ∧
      mergeInputAB.InitialState = mergeInputBA.InitialState ∧
      mergeInputAB.States.Perm mergeInputBA.States ∧
      (mergeInputAB.Events.map Event.Name).Nodup ∧
      (mergeInputAB.Events.map Event.Name).Perm (mergeInputBA.Events.map Event.Name) ∧
      ∀ e1 ∈ mergeInputAB.Events, ∀ e2 ∈ mergeInputBA.Events, e1.Name = e2.Name →
        e1.To = e2.To ∧ e1.From.Perm e2.From) :=
  ⟨⟨mergeInputAB_run, mergeInputBA_run⟩,
    runs_agree_up_to_order mergeFsm "Merge" "" mergeInputAB mergeInputBA
      mergeInputAB_run mergeInputBA_run⟩

/-! ## Output path -/

/-- C4: for the input path `session.json`, of the form base + `.json` with
base `session`, the derived output path is `sessi.go` and not `session.go`:
the trailing letters `o` and `n` of the base are stripped with the extension. -/
theorem destinationFile_session :
    destinationFile ("session" ++ ".json") = "sessi.go" ∧
      destinationFile ("session" ++ ".json") ≠ "session" ++ ".go" := by
  decide

/-! ## Ordinary states -/

/-- C6: in the data a run hands to the template, the list of ordinary states
holds every declared state name other than the initial state exactly once,
holds nothing else, and never holds the initial state's name; so among the
state constants, the initial state followed by the ordinary states, the
initial state's name occurs exactly once. -/
theorem initial_state_listed_once (fsm : FSMData) (typeName gopackage : String)
    (d : Input) (h : InputOf fsm typeName gopackage d) :
    (∀ k, k ∈ fsm.States.keys → k ≠ fsm.Initial → d.States.count { Name := k } = 1) ∧
      (∀ s ∈ d.States, s.Name ∈ fsm.States.keys ∧ s.Name ≠ fsm.Initial) ∧
      d.InitialState.Name = fsm.Initial ∧
      ((d.InitialState :: d.States).map State.Name).count fsm.Initial = 1 := by
  obtain ⟨v, sOrd, _, hn, hm, hs, hi, _⟩ := h.spec
  have hmem : ∀ s ∈ d.States, s.Name ∈ fsm.States.keys ∧ s.Name ≠ fsm.Initial := by
    intro s hsm
    rw [hs] at hsm
    simp only [statesList, List.mem_map, List.mem_filter, decide_eq_true_eq] at hsm
    obtain ⟨k, ⟨hk1, hk2⟩, rfl⟩ := hsm
    exact ⟨(hm k).1 hk1, hk2⟩
  refine ⟨?_, hmem, by rw [hi], ?_⟩
  · intro k hk hne
    have hnd : d.States.Nodup := by
      rw [hs]
      exact List.Nodup.map (fun a b hab => by simpa using hab) (hn.filter _)
    apply List.count_eq_one_of_mem hnd
    rw [hs]
    simp only [statesList, List.mem_map, List.mem_filter, decide_eq_true_eq]
    exact ⟨k, ⟨(hm k).2 hk, hne⟩, rfl⟩
  · rw [hi]
    simp only [List.map_cons, List.count_cons_self, add_left_eq_self]
    rw [List.count_eq_zero]
    intro hc
    obtain ⟨s, hs1, hs2⟩ := List.mem_map.1 hc
    exact (hmem s hs1).2 hs2

/-- Witness of C6: the run on `mergeFsm` that visits `A` before `B`; its
ordinary states are `B` and `C`. -/
theorem initial_state_listed_once_witness :
    InputOf mergeFsm "Merge" "" mergeInputAB ∧
    ((∀ k, k ∈ mergeFsm.States.keys → k ≠ mergeFsm.Initial →
        mergeInputAB.States.count { Name := k } = 1) ∧
      (∀ s ∈ mergeInputAB.States, s.Name ∈ mergeFsm.States.keys ∧ s.Name ≠ mergeFsm.Initial) ∧
      mergeInputAB.InitialState.Name = mergeFsm.Initial ∧
      ((mergeInputAB.InitialState :: mergeInputAB.States).map State.Name).count
        mergeFsm.Initial = 1) ∧
    mergeInputAB.States = [{ Name := "B" }, { Name := "C" }] :=
  ⟨mergeInputAB_run,
    initial_state_listed_once mergeFsm "Merge" "" mergeInputAB mergeInputAB_run, by decide⟩

/-! ## The fatal message -/

theorem conflictFsm_decl {k ek ev : String} (h : Declares conflictFsm k ek ev) :
    (k = "red" ∧ ev = "green") ∨ (k = "yellow" ∧ ev = "blue") := by
  obtain ⟨st, h1, h2⟩ := h
  simp only [conflictFsm, List.mem_cons, Prod.mk.injEq, List.mem_nil_iff, or_false] at h1
  rcases h1 with ⟨hk, h⟩ | ⟨hk, h⟩
  · subst h
    simp only [List.mem_singleton, Prod.mk.injEq] at h2
    exact Or.inl ⟨hk, h2.2⟩
  · subst h
    simp only [List.mem_singleton, Prod.mk.injEq] at h2
    exact Or.inr ⟨hk, h2.2⟩

set_option maxRecDepth 10000 in
/-- C7: on the failure scenario `conflictFsm`, where `go` is declared with
the destinations `green` and `blue`, the message of every failing run names
the two destinations but not the event `go`: it opens with the name of the
state whose table was being read, `Event yellow has two destinations, blue and
green` when `red` is visited first. -/
theorem conflict_message_lacks_event :
    (∀ visit, Traversal conflictFsm.States visit → ∀ msg, buildModel visit = .error msg →
        mentions msg "go" = false ∧ mentions msg "green" = true ∧
          mentions msg "blue" = true) ∧
      buildModel conflictFsm.States =
        .error "Event yellow has two destinations, blue and green which is not supported 😢." := by
  refine ⟨?_, rfl⟩
  intro visit htr msg hb
  obtain ⟨⟨a1, b1, c1⟩, hx1, ⟨a2, b2, c2⟩, hx2, _, hne, hmsg⟩ := buildModel_error hb
  simp only at hne hmsg
  subst hmsg
  rcases conflictFsm_decl ((htr.mem_decls_iff _ _ _).1 hx1) with ⟨h1, h2⟩ | ⟨h1, h2⟩ <;>
    rcases conflictFsm_decl ((htr.mem_decls_iff _ _ _).1 hx2) with ⟨h3, h4⟩ | ⟨h3, h4⟩ <;>
    subst h1 h2 h3 h4
  · exact absurd rfl hne
  · decide
  · decide
  · exact absurd rfl hne

/-! ## Referenced state names -/

/-- Counterexample to C10: the run on `danglingFsm` returns a model whose
initial state `idle` and whose event destination `b` are not among the
declared states. -/
theorem dangling_model_is_returned :
    InputOf danglingFsm "M" "" danglingInput ∧
      danglingInput.InitialState.Name ∉ danglingFsm.States.keys ∧
      ∃ e ∈ danglingInput.Events, e.To ∉ danglingFsm.States.keys :=
  ⟨⟨danglingFsm.States, [("a", true)], [("go", { Name := "go", From := ["a"], To := "b" })],
      _, _, Traversal.refl _, rfl, List.Perm.refl _, List.Perm.refl _, rfl⟩,
    by decide, { Name := "go", From := ["a"], To := "b" }, by decide, by decide⟩

/-- C10, amended: in the data a run hands to the template, every state name
referenced as an event's source is a declared state, and so is every ordinary
state; an event's destination is the destination the schema declares for the
event and the initial state is the schema's initial-state name, whether
declared as states or not. -/
theorem sources_are_declared (fsm : FSMData) (typeName gopackage : String)
    (d : Input) (h : InputOf fsm typeName gopackage d) :
    (∀ e ∈ d.Events, ∀ s ∈ e.From, s ∈ fsm.States.keys) ∧
      (∀ s ∈ d.States, s.Name ∈ fsm.States.keys) ∧
      (∀ e ∈ d.Events, ∃ k, Declares fsm k e.Name e.To) ∧
      d.InitialState.Name = fsm.Initial := by
  obtain ⟨v, sOrd, htr, _, hm, hs, hi, _, _, _, hem, hev⟩ := h.spec
  refine ⟨?_, ?_, ?_, by rw [hi]⟩
  · intro e he s hsrc
    rw [(hev e he).1, mem_srcOf] at hsrc
    obtain ⟨ev, hx⟩ := hsrc
    obtain ⟨st, hst, _⟩ := (htr.mem_decls_iff _ _ _).1 hx
    exact List.mem_map_of_mem Prod.fst hst
  · intro s hsm
    rw [hs] at hsm
    simp only [statesList, List.mem_map, List.mem_filter, decide_eq_true_eq] at hsm
    obtain ⟨k, ⟨hk1, _⟩, rfl⟩ := hsm
    exact (hm k).1 hk1
  · intro e he
    obtain ⟨⟨a, b, c⟩, hx, hxk⟩ := (hem e.Name).1 (List.mem_map_of_mem _ he)
    simp only at hxk
    subst hxk
    have hc : c = e.To := (hev e he).2 _ hx rfl
    subst hc
    exact ⟨a, (htr.mem_decls_iff _ _ _).1 hx⟩

/-- Witness of C10, amended: the run on `danglingFsm`. -/
theorem sources_are_declared_witness :
    InputOf danglingFsm "M" "" danglingInput ∧
    ((∀ e ∈ danglingInput.Events, ∀ s ∈ e.From, s ∈ danglingFsm.States.keys) ∧
      (∀ s ∈ danglingInput.States, s.Name ∈ danglingFsm.States.keys) ∧
      (∀ e ∈ danglingInput.Events, ∃ k, Declares danglingFsm k e.Name e.To) ∧
      danglingInput.InitialState.Name = danglingFsm.Initial) :=
  have h : InputOf danglingFsm "M" "" danglingInput :=
    ⟨danglingFsm.States, [("a", true)], [("go", { Name := "go", From := ["a"], To := "b" })],
      _, _, Traversal.refl _, rfl, List.Perm.refl _, List.Perm.refl _, rfl⟩
  ⟨h, sources_are_declared danglingFsm "M" "" danglingInput h⟩

/-! ## The normaliser on names made of words -/

/-- The steps of `gName` between the two conversions of the string. -/
theorem gName_data (s : String) :
    (gName s).data =
      (titleLoop false (s.data.map (fun c => lowerRune (if c = '_' then ' ' else c)))).filter
        (fun c => decide (c ≠ ' ')) := by
  have r1 : ∀ l : List Char, replaceAll l '_' [' '] = l.map (fun c => if c = '_' then ' ' else c) := by
    intro l
    induction l with
    | nil => rfl
    | cons c l ih =>
      simp only [replaceAll, List.flatMap_cons, List.map_cons] at ih ⊢
      rw [ih]
      split <;> rfl
  have r2 : ∀ l : List Char, replaceAll l ' ' [] = l.filter (fun c => decide (c ≠ ' ')) := by
    intro l
    induction l with
    | nil => rfl
    | cons c l ih =>
      simp only [replaceAll, List.flatMap_cons] at ih ⊢
      rw [ih]
      by_cases h : c = ' '
      · simp [h]
      · simp [h]
  simp only [gName, title, toLower, r1, r2, List.map_map, Function.comp_def]

theorem ascii_of_cased (c : Char) (h : isCased c = true) : c.toNat < 128 := by
  simp only [isCased, isUpperAscii, isLowerAscii, Bool.or_eq_true, Bool.and_eq_true,
    decide_eq_true_eq] at h
  omega

set_option maxRecDepth 100000 in
theorem cased_table : ∀ n, n < 128 → isCased (Char.ofNat n) = true →
    Char.ofNat n ≠ '_' ∧ Char.ofNat n ≠ ' ' ∧
      isCased (lowerRune (Char.ofNat n)) = true ∧ isMid (lowerRune (Char.ofNat n)) = false ∧
      lowerRune (lowerRune (Char.ofNat n)) = lowerRune (Char.ofNat n) ∧
      titleRune (lowerRune (Char.ofNat n)) = titleRune (Char.ofNat n) ∧
      lowerRune (Char.ofNat n) ≠ ' ' ∧ titleRune (Char.ofNat n) ≠ ' ' := by
  decide

theorem cased_facts (c : Char) (h : isCased c = true) :
    c ≠ '_' ∧ c ≠ ' ' ∧ isCased (lowerRune c) = true ∧ isMid (lowerRune c) = false ∧
      lowerRune (lowerRune c) = lowerRune c ∧ titleRune (lowerRune c) = titleRune c ∧
      lowerRune c ≠ ' ' ∧ titleRune c ≠ ' ' := by
  have := cased_table c.toNat (ascii_of_cased c h)
  rw [Char.ofNat_toNat] at this
  exact this h

theorem titleLoop_cons_of_not_mid (m : Bool) (c : Char) (l : List Char)
    (h : isMid c = false) :
    titleLoop m (c :: l) =
      (if isCased c then (if m then lowerRune c else titleRune c) else c) ::
        titleLoop (if isCased c then true else if isBreak c then false else m) l := by
  cases l with
  | nil => simp [titleLoop]
  | cons n l => simp [titleLoop, h]

/-- The normaliser on lists of code points, started inside a word or not. -/
theorem norm_letter (m : Bool) (c : Char) (T : List Char) (h : isCased c = true) :
    (titleLoop m ((c :: T).map (fun c => lowerRune (if c = '_' then ' ' else c)))).filter
        (fun c => decide (c ≠ ' ')) =
      (if m then lowerRune c else titleRune c) ::
        (titleLoop true (T.map (fun c => lowerRune (if c = '_' then ' ' else c)))).filter
          (fun c => decide (c ≠ ' ')) := by
  obtain ⟨h1, _, h3, h4, h5, h6, h7, h8⟩ := cased_facts c h
  simp only [List.map_cons, h1, if_false]
  rw [titleLoop_cons_of_not_mid _ _ _ h4]
  simp only [h3, if_true, h5, h6]
  cases m
  · simp [h8]
  · simp [h7]

theorem norm_letters (u T : List Char) (h : ∀ c ∈ u, isCased c = true) :
    (titleLoop true ((u ++ T).map (fun c => lowerRune (if c = '_' then ' ' else c)))).filter
        (fun c => decide (c ≠ ' ')) =
      u.map lowerRune ++
        (titleLoop true (T.map (fun c => lowerRune (if c = '_' then ' ' else c)))).filter
          (fun c => decide (c ≠ ' ')) := by
  induction u with
  | nil => rfl
  | cons c u ih =>
    rw [List.cons_append, norm_letter true c (u ++ T) (h c (List.mem_cons_self _ _)),
      ih (fun x hx => h x (List.mem_cons_of_mem _ hx))]
    rfl

theorem norm_word (w T : List Char) (h : IsWord w) :
    (titleLoop false ((w ++ T).map (fun c => lowerRune (if c = '_' then ' ' else c)))).filter
        (fun c => decide (c ≠ ' ')) =
      capitalize w ++
        (titleLoop true (T.map (fun c => lowerRune (if c = '_' then ' ' else c)))).filter
          (fun c => decide (c ≠ ' ')) := by
  obtain ⟨hne, hall⟩ := h
  cases w with
  | nil => exact absurd rfl hne
  | cons c u =>
    rw [List.cons_append, norm_letter false c (u ++ T) (hall c (List.mem_cons_self _ _)),
      norm_letters u T (fun x hx => hall x (List.mem_cons_of_mem _ hx))]
    rfl

theorem norm_separator (m : Bool) (sep : Char) (T : List Char)
    (h : sep = '_' ∨ sep = ' ') :
    (titleLoop m ((sep :: T).map (fun c => lowerRune (if c = '_' then ' ' else c)))).filter
        (fun c => decide (c ≠ ' ')) =
      (titleLoop false (T.map (fun c => lowerRune (if c = '_' then ' ' else c)))).filter
        (fun c => decide (c ≠ ' ')) := by
  have hpre : lowerRune (if sep = '_' then ' ' else sep) = ' ' := by
    rcases h with h | h <;> subst h <;> decide
  have hmid : isMid ' ' = false := by decide
  have hcased : isCased ' ' = false := by decide
  have hbreak : isBreak ' ' = true := by decide
  simp only [List.map_cons, hpre]
  rw [titleLoop_cons_of_not_mid _ _ _ hmid]
  simp [hcased, hbreak]

theorem norm_rest (rest : List (Char × List Char))
    (h : ∀ p ∈ rest, (p.1 = '_' ∨ p.1 = ' ') ∧ IsWord p.2) :
    (titleLoop true ((rest.flatMap (fun p => p.1 :: p.2)).map
        (fun c => lowerRune (if c = '_' then ' ' else c)))).filter (fun c => decide (c ≠ ' ')) =
      (rest.map Prod.snd).flatMap capitalize := by
  induction rest with
  | nil => rfl
  | cons p rest ih =>
    obtain ⟨hsep, hword⟩ := h p (List.mem_cons_self _ _)
    rw [List.flatMap_cons, List.cons_append, norm_separator true p.1 _ hsep,
      norm_word p.2 _ hword, ih (fun q hq => h q (List.mem_cons_of_mem _ hq))]
    simp

theorem gName_of_words (w : List Char) (rest : List (Char × List Char)) (hw : IsWord w)
    (hrest : ∀ p ∈ rest, (p.1 = '_' ∨ p.1 = ' ') ∧ IsWord p.2) :
    gName (String.mk (joinWords w rest)) =
      String.mk ((w :: rest.map Prod.snd).flatMap capitalize) := by
  apply String.ext
  rw [gName_data]
  simp only [joinWords]
  rw [norm_word w _ hw, norm_rest rest hrest]
  simp

/-- C5: for a name made of words of ASCII letters, the first word `w` and the
words of `rest` each after one underscore or one space, `stateName` and
`eventName` return the words, each with its first letter in upper case and its
other letters in lower case, one after the other, followed by `State` resp.
`Event`. -/
theorem names_of_words (w : List Char) (rest : List (Char × List Char)) (hw : IsWord w)
    (hrest : ∀ p ∈ rest, (p.1 = '_' ∨ p.1 = ' ') ∧ IsWord p.2) :
    stateName (String.mk (joinWords w rest)) =
        String.mk ((w :: rest.map Prod.snd).flatMap capitalize) ++ "State" ∧
      eventName (String.mk (joinWords w rest)) =
        String.mk ((w :: rest.map Prod.snd).flatMap capitalize) ++ "Event" := by
  unfold stateName eventName
  rw [gName_of_words w rest hw hrest]
  exact ⟨rfl, rfl⟩

theorem isWord_turn : IsWord "turn".data := by
  refine ⟨by decide, ?_⟩
  decide

theorem isWord_signal_rest :
    ∀ p ∈ [('_', "signal".data)], (p.1 = '_' ∨ p.1 = ' ') ∧ IsWord p.2 := by
  intro p hp
  simp only [List.mem_singleton] at hp
  subst hp
  exact ⟨Or.inl rfl, by decide, by decide⟩

/-- Witness of C5: the name `turn_signal`, made of the words `turn` and
`signal`, gives `TurnSignalState` and `TurnSignalEvent`; and `RED` gives
`RedState`. -/
theorem names_of_words_witness :
    (IsWord "turn".data ∧
      ∀ p ∈ [('_', "signal".data)], (p.1 = '_' ∨ p.1 = ' ') ∧ IsWord p.2) ∧
    (stateName "turn_signal" = "TurnSignalState" ∧
      eventName "turn_signal" = "TurnSignalEvent") ∧
    stateName "RED" = "RedState" :=
  ⟨⟨isWord_turn, isWord_signal_rest⟩,
    names_of_words "turn".data [('_', "signal".data)] isWord_turn isWord_signal_rest,
    by decide⟩

/-! ## The generated declarations -/

theorem rangeStates_eq (d : Input) (l : List State) :
    rangeStates d l =
      concatAll (l.map (fun s => " \n\t// " ++ stateName s.Name ++ " state.\n\t" ++
        constLine (stateName s.Name) (d.TypeName ++ "State") s.Name ++ " ")) := by
  induction l with
  | nil => rfl
  | cons a l ih =>
    simp only [rangeStates, List.map_cons, concatAll, ih, constLine, State.NameGo,
      String.append_assoc]

theorem rangeEventConsts_eq (d : Input) (l : List Event) :
    rangeEventConsts d l =
      concatAll (l.map (fun e => "\n\t// " ++ eventName e.Name ++ " state.\n\t" ++
        constLine (eventName e.Name) (d.TypeName ++ "Event") e.Name)) := by
  induction l with
  | nil => rfl
  | cons a l ih =>
    simp only [rangeEventConsts, List.map_cons, concatAll, ih, constLine, Event.NameGo,
      String.append_assoc]

theorem rangeFrom_succ (d : Input) (i : Nat) (l : List String) :
    rangeFrom d (i + 1) l =
      concatAll (l.map (fun s => ", " ++ (stateName s ++ ".String()"))) := by
  induction l generalizing i with
  | nil => rfl
  | cons a l ih =>
    simp only [rangeFrom, List.map_cons, concatAll, ih, Input.StateName, String.append_assoc]
    simp

theorem joinWith_cons (sep a : String) (l : List String) :
    joinWith sep (a :: l) = a ++ concatAll (l.map (fun s => sep ++ s)) := by
  induction l generalizing a with
  | nil => simp [joinWith, concatAll]
  | cons b l ih =>
    simp only [joinWith, List.map_cons, concatAll, ih, String.append_assoc]

theorem rangeFrom_zero (d : Input) (l : List String) :
    rangeFrom d 0 l = joinWith ", " ((l.map stateName).map (fun c => c ++ ".String()")) := by
  cases l with
  | nil => rfl
  | cons a l =>
    simp only [rangeFrom, List.map_cons, joinWith_cons, rangeFrom_succ, Input.StateName,
      List.map_map, Function.comp_def, String.append_assoc]
    simp

theorem rangeRules_eq (d : Input) (l : List Event) :
    rangeRules d l =
      concatAll (l.map (fun e =>
        ruleText (eventName e.Name) (e.From.map stateName) (stateName e.To))) := by
  induction l with
  | nil => rfl
  | cons a l ih =>
    simp only [rangeRules, List.map_cons, concatAll, ih, ruleText, rangeFrom_zero,
      Event.NameGo, Event.ToGo, String.append_assoc]

theorem mem_eventNames (fsm : FSMData) (ek : String) :
    ek ∈ eventNames fsm ↔ ∃ k ev, Declares fsm k ek ev := by
  unfold eventNames Declares
  simp only [List.mem_flatMap, List.mem_map]
  constructor
  · rintro ⟨⟨k, st⟩, h1, ⟨ek1, ev⟩, h2, rfl⟩
    exact ⟨k, ev, st, h1, h2⟩
  · rintro ⟨k, ev, st, h1, h2⟩
    exact ⟨(k, st), h1, (ek, ev), h2, rfl⟩

/-- C8: the constructor in the text generated for a run holds one transition
rule per event handed to the template, in the order of the events; the rule
of an event names the event's constant, lists the constants of the event's
source states in their stored order, and names the constant of the event's
destination; the events have pairwise different names, and they are as many
as the schema has different event names. -/
theorem constructor_rules (fsm : FSMData) (typeName gopackage : String) (d : Input)
    (h : InputOf fsm typeName gopackage d) :
    render d =
        tmplTypes d ++ tmplConsts d ++ tmplStruct d ++
          ("//New" ++ d.TypeName ++ " creates new FSM with callbacks provided.\nfunc New" ++
            d.TypeName ++ "(callbacks fsm.Callbacks) *" ++ d.TypeName ++
            " \x7b\n\tfsm := fsm.NewFSM(\n\t\t" ++ stateName d.InitialState.Name ++
            ".String(),\n\t\tfsm.Events\x7b\n\t\t\t" ++
            concatAll (d.Events.map (fun e =>
              ruleText (eventName e.Name) (e.From.map stateName) (stateName e.To))) ++
            "\t\t\t\n\t\t\x7d,\n\t\tcallbacks,\n\t)\n\treturn &" ++ d.TypeName ++
            "\x7bfsm: fsm\x7d\n\x7d\n\n") ++
          tmplMethods d ∧
      (d.Events.map Event.Name).Nodup ∧
      d.Events.length = (eventNames fsm).dedup.length := by
  obtain ⟨v, sOrd, htr, _, _, _, _, _, _, hen, hem, _⟩ := h.spec
  refine ⟨?_, hen, ?_⟩
  · simp only [render, tmplNew, rangeRules_eq, State.NameGo]
  · rw [← List.length_map d.Events Event.Name]
    apply List.Perm.length_eq
    refine (List.perm_ext_iff_of_nodup hen (List.nodup_dedup _)).2 (fun ek => ?_)
    rw [hem, List.mem_dedup, mem_eventNames]
    constructor
    · rintro ⟨⟨a, b, c⟩, hx, hxk⟩
      simp only at hxk
      subst hxk
      exact ⟨a, c, (htr.mem_decls_iff _ _ _).1 hx⟩
    · rintro ⟨k, ev, hdec⟩
      exact ⟨(k, ek, ev), (htr.mem_decls_iff _ _ _).2 hdec, rfl⟩

theorem lightInput_run : InputOf lightFsm "Light" "" lightInput :=
  ⟨lightFsm.States, [("red", true), ("green", true)],
    [("go", { Name := "go", From := ["red"], To := "green" }),
     ("stop", { Name := "stop", From := ["green"], To := "red" })], _, _,
    Traversal.refl _, rfl, List.Perm.refl _, List.Perm.refl _, rfl⟩

/-- Witness of C8: the run on the red/green `Light` example; its constructor
holds the two rules of `go` and `stop`. -/
theorem constructor_rules_witness :
    InputOf lightFsm "Light" "" lightInput ∧
    (render lightInput =
        tmplTypes lightInput ++ tmplConsts lightInput ++ tmplStruct lightInput ++
          ("//New" ++ lightInput.TypeName ++
            " creates new FSM with callbacks provided.\nfunc New" ++
            lightInput.TypeName ++ "(callbacks fsm.Callbacks) *" ++ lightInput.TypeName ++
            " \x7b\n\tfsm := fsm.NewFSM(\n\t\t" ++ stateName lightInput.InitialState.Name ++
            ".String(),\n\t\tfsm.Events\x7b\n\t\t\t" ++
            concatAll (lightInput.Events.map (fun e =>
              ruleText (eventName e.Name) (e.From.map stateName) (stateName e.To))) ++
            "\t\t\t\n\t\t\x7d,\n\t\tcallbacks,\n\t)\n\treturn &" ++ lightInput.TypeName ++
            "\x7bfsm: fsm\x7d\n\x7d\n\n") ++
          tmplMethods lightInput ∧
      (lightInput.Events.map Event.Name).Nodup ∧
      lightInput.Events.length = (eventNames lightFsm).dedup.length) ∧
    (eventNames lightFsm).dedup.length = 2 ∧
    lightInput.Events.map
        (fun e => ruleText (eventName e.Name) (e.From.map stateName) (stateName e.To)) =
      ["\n\t\t\t\t\x7b Name: GoEvent.String(), Src:[]string\x7b RedState.String() \x7d, Dst: GreenState.String() \x7d,  ",
       "\n\t\t\t\t\x7b Name: StopEvent.String(), Src:[]string\x7b GreenState.String() \x7d, Dst: RedState.String() \x7d,  "] :=
  ⟨lightInput_run, constructor_rules lightFsm "Light" "" lightInput lightInput_run,
    by decide, by decide⟩

/-- C9: the constant block of the generated text declares the constant of the
initial state first, then one constant per ordinary state in the order of the
list, then one constant per event in the order of the list; the symbol of a
constant is `stateName` resp. `eventName` of the raw name, and its string
value is the raw name as it stands. -/
theorem constant_block (d : Input) :
    render d =
      tmplTypes d ++
        ("const (\n\t// States.\n\t// " ++ stateName d.InitialState.Name ++
          " is initial state.\n\t" ++
          constLine (stateName d.InitialState.Name) (d.TypeName ++ "State")
            d.InitialState.Name ++ "\n\t" ++
          concatAll (d.States.map (fun s => " \n\t// " ++ stateName s.Name ++ " state.\n\t" ++
            constLine (stateName s.Name) (d.TypeName ++ "State") s.Name ++ " ")) ++
          "\n\n\t//Events.\n\t" ++
          concatAll (d.Events.map (fun e => "\n\t// " ++ eventName e.Name ++ " state.\n\t" ++
            constLine (eventName e.Name) (d.TypeName ++ "Event") e.Name)) ++
          "\n)\n\n") ++
        tmplStruct d ++ tmplNew d ++ tmplMethods d := by
  simp only [render, tmplConsts, rangeStates_eq, rangeEventConsts_eq, State.NameGo, constLine,
    String.append_assoc]

/-! ## Acceptance of schemas -/

theorem danglingFsm_unambiguous : Unambiguous danglingFsm := by
  have key : ∀ k ek ev, Declares danglingFsm k ek ev → ev = "b" := by
    rintro k ek ev ⟨st, h1, h2⟩
    simp only [danglingFsm, List.mem_singleton, Prod.mk.injEq] at h1
    obtain ⟨_, h⟩ := h1
    subst h
    simp only [List.mem_singleton, Prod.mk.injEq] at h2
    exact h2.2
  intro k1 k2 ek d1 d2 h1 h2
  rw [key _ _ _ h1, key _ _ _ h2]

/-- C11: model construction gets through for every schema in which no event
is declared with two different destinations, on every traversal, and the run
then hands a model to the template; nothing is asked of the initial state or
of the destinations, so a schema whose initial state and whose destination
are not declared states is accepted as well. -/
theorem unambiguous_schema_is_accepted (fsm : FSMData) (typeName gopackage : String)
    (hu : Unambiguous fsm) :
    (∀ visit, Traversal fsm.States visit →
        ∃ states events, buildModel visit = .ok (states, events)) ∧
      ∃ d, InputOf fsm typeName gopackage d := by
  have hall : ∀ visit, Traversal fsm.States visit →
      ∃ states events, buildModel visit = .ok (states, events) := by
    intro visit htr
    apply buildModel_total
    rintro ⟨a1, b1, c1⟩ hx1 ⟨a2, b2, c2⟩ hx2 hb
    simp only at hb
    subst hb
    exact hu a1 a2 b1 c1 c2 ((htr.mem_decls_iff _ _ _).1 hx1) ((htr.mem_decls_iff _ _ _).1 hx2)
  refine ⟨hall, ?_⟩
  obtain ⟨states, events, hb⟩ := hall fsm.States (Traversal.refl _)
  exact ⟨_, fsm.States, states, events, states.keys, events.values, Traversal.refl _, hb,
    List.Perm.refl _, List.Perm.refl _, rfl⟩

/-- Witness of C11: the schema `danglingFsm`, whose initial state `idle` and
whose destination `b` are not declared states, is accepted. -/
theorem unambiguous_schema_is_accepted_witness :
    (Unambiguous danglingFsm ∧ danglingFsm.Initial ∉ danglingFsm.States.keys ∧
      Declares danglingFsm "a" "go" "b" ∧ "b" ∉ danglingFsm.States.keys) ∧
    ((∀ visit, Traversal danglingFsm.States visit →
        ∃ states events, buildModel visit = .ok (states, events)) ∧
      ∃ d, InputOf danglingFsm "M" "" d) :=
  ⟨⟨danglingFsm_unambiguous, by decide,
      ⟨{ On := [("go", "b")], Typ := "" }, by simp [danglingFsm], by simp⟩, by decide⟩,
    unambiguous_schema_is_accepted danglingFsm "M" "" danglingFsm_unambiguous⟩

/-! ## The normaliser and the form of the raw name -/

theorem replaceAll_underscore (l : List Char) :
    replaceAll l '_' [' '] = l.map (fun c => if c = '_' then ' ' else c) := by
  induction l with
  | nil => rfl
  | cons c l ih =>
    simp only [replaceAll, List.flatMap_cons, List.map_cons] at ih ⊢
    rw [ih]
    split <;> rfl

theorem ascii_of_upper (c : Char) (h : isUpperAscii c = true) : c.toNat < 128 := by
  simp only [isUpperAscii, Bool.and_eq_true, decide_eq_true_eq] at h
  omega

theorem ascii_of_lower (c : Char) (h : isLowerAscii c = true) : c.toNat < 128 := by
  simp only [isLowerAscii, Bool.and_eq_true, decide_eq_true_eq] at h
  omega

set_option maxRecDepth 100000 in
theorem upper_table : ∀ n, n < 128 → isUpperAscii (Char.ofNat n) = true →
    Char.ofNat n ≠ '_' ∧ lowerRune (Char.ofNat n) ≠ '_' ∧
      lowerRune (lowerRune (Char.ofNat n)) = lowerRune (Char.ofNat n) := by
  decide

set_option maxRecDepth 100000 in
theorem lower_table : ∀ n, n < 128 → isLowerAscii (Char.ofNat n) = true →
    titleRune (Char.ofNat n) ≠ '_' := by
  decide

theorem upper_facts (c : Char) (h : isUpperAscii c = true) :
    c ≠ '_' ∧ lowerRune c ≠ '_' ∧ lowerRune (lowerRune c) = lowerRune c := by
  have := upper_table c.toNat (ascii_of_upper c h)
  rw [Char.ofNat_toNat] at this
  exact this h

theorem lowerRune_of_not_upper (c : Char) (h : isUpperAscii c = false) : lowerRune c = c := by
  simp [lowerRune, h]

theorem lowerRune_idem (c : Char) : lowerRune (lowerRune c) = lowerRune c := by
  cases h : isUpperAscii c with
  | true => exact (upper_facts c h).2.2
  | false => rw [lowerRune_of_not_upper c h, lowerRune_of_not_upper c h]

theorem lowerRune_eq_underscore (c : Char) : lowerRune c = '_' ↔ c = '_' := by
  cases h : isUpperAscii c with
  | true =>
    constructor
    · intro h1
      exact absurd h1 (upper_facts c h).2.1
    · intro h1
      exact absurd h1 (upper_facts c h).1
  | false => rw [lowerRune_of_not_upper c h]

theorem gName_spaced (s : String) : gName (spaced s) = gName s := by
  apply String.ext
  rw [gName_data, gName_data]
  simp only [spaced, replaceAll_underscore, List.map_map]
  congr 2
  apply List.map_congr_left
  intro c _
  by_cases h : c = '_'
  · subst h
    decide
  · simp [h]

/-- C12: for every name `s`, `stateName` and `eventName` give the same
identifier for `s` and for `s` with every underscore replaced by a space; so
neither is injective: the different names `turn_signal` and `turn signal` get
the same identifiers, and both calls return an identifier, never an error. -/
theorem separator_is_ignored (s : String) :
    (stateName (spaced s) = stateName s ∧ eventName (spaced s) = eventName s) ∧
      ("turn_signal" ≠ "turn signal" ∧ spaced "turn_signal" = "turn signal" ∧
        stateName "turn_signal" = stateName "turn signal" ∧
        eventName "turn_signal" = eventName "turn signal") ∧
      ¬ Function.Injective stateName ∧ ¬ Function.Injective eventName := by
  have hs : stateName "turn_signal" = stateName "turn signal" := by decide
  have he : eventName "turn_signal" = eventName "turn signal" := by decide
  have hne : "turn_signal" ≠ "turn signal" := by decide
  refine ⟨⟨?_, ?_⟩, ⟨hne, by decide, hs, he⟩, fun hi => hne (hi hs), fun hi => hne (hi he)⟩
  · simp only [stateName, gName_spaced]
  · simp only [eventName, gName_spaced]

theorem gName_eq_gNameWith (s : String) : gName s = gNameWith lowerRune title s := rfl

theorem gNameWith_lowered (lower : Char → Char) (caser : List Char → List Char)
    (hidem : ∀ c, lower (lower c) = lower c) (hus : ∀ c, lower c = '_' ↔ c = '_')
    (s : String) :
    gNameWith lower caser (loweredWith lower s) = gNameWith lower caser s := by
  have hmap : ((replaceAll (loweredWith lower s).data '_' [' ']).map lower) =
      ((replaceAll s.data '_' [' ']).map lower) := by
    simp only [loweredWith, replaceAll_underscore, List.map_map]
    apply List.map_congr_left
    intro c _
    simp only [Function.comp_apply]
    by_cases h : c = '_'
    · subst h
      have h1 : lower '_' = '_' := (hus '_').2 rfl
      simp [h1]
    · have h1 : ¬ lower c = '_' := fun e => h ((hus c).1 e)
      simp only [h, h1, if_false]
      exact hidem c
  simp only [gNameWith, hmap]

/-- C13: for every name `s`, `stateName` and `eventName` give the same
identifier for `s` and for `s` in lower case, whatever the tables of the two
library calls are, as long as lower-casing a code point twice is lower-casing
it once and the underscore is the one code point that lower-cases to the
underscore: the letter case of the raw name is not kept. -/
theorem letter_case_is_ignored (lower : Char → Char) (caser : List Char → List Char)
    (hidem : ∀ c, lower (lower c) = lower c) (hus : ∀ c, lower c = '_' ↔ c = '_')
    (s : String) :
    stateNameWith lower caser (loweredWith lower s) = stateNameWith lower caser s ∧
      eventNameWith lower caser (loweredWith lower s) = eventNameWith lower caser s := by
  simp only [stateNameWith, eventNameWith, gNameWith_lowered lower caser hidem hus s,
    and_self]

/-- Witness of C13: the ASCII tables and the name `RED`, whose lower case is
`red`; both give `RedState`. -/
theorem letter_case_is_ignored_witness :
    ((∀ c, lowerRune (lowerRune c) = lowerRune c) ∧ ∀ c, lowerRune c = '_' ↔ c = '_') ∧
    (stateNameWith lowerRune title (loweredWith lowerRune "RED") =
        stateNameWith lowerRune title "RED" ∧
      eventNameWith lowerRune title (loweredWith lowerRune "RED") =
        eventNameWith lowerRune title "RED") ∧
    loweredWith lowerRune "RED" = "red" ∧ stateNameWith lowerRune title "RED" = "RedState" ∧
    stateName "RED" = "RedState" ∧ stateName "red" = "RedState" :=
  ⟨⟨lowerRune_idem, lowerRune_eq_underscore⟩,
    letter_case_is_ignored lowerRune title lowerRune_idem lowerRune_eq_underscore "RED",
    by decide, by decide, by decide, by decide⟩

/-! ## The characters of an identifier -/

theorem titleRune_ne_underscore (c : Char) (h : c ≠ '_') : titleRune c ≠ '_' := by
  cases hl : isLowerAscii c with
  | true =>
    have := lower_table c.toNat (ascii_of_lower c hl)
    rw [Char.ofNat_toNat] at this
    exact this hl
  | false => simpa [titleRune, hl] using h

theorem titleLoop_mem (m : Bool) (l : List Char) (x : Char) (h : x ∈ titleLoop m l) :
    ∃ c ∈ l, x = c ∨ x = lowerRune c ∨ x = titleRune c := by
  induction l generalizing m with
  | nil => simp [titleLoop] at h
  | cons c rest ih =>
    simp only [titleLoop, List.mem_cons] at h
    rcases h with h | h
    · refine ⟨c, List.mem_cons_self _ _, ?_⟩
      subst h
      by_cases hc : isCased c = true
      · simp only [hc, if_true]
        cases m
        · exact Or.inr (Or.inr (by simp))
        · exact Or.inr (Or.inl (by simp))
      · simp [hc]
    · obtain ⟨y, hy, hx⟩ := ih _ h
      exact ⟨y, List.mem_cons_of_mem _ hy, hx⟩

theorem title_no_underscore (l : List Char) (h : '_' ∉ l) : '_' ∉ title l := by
  intro hx
  obtain ⟨c, hc, hx⟩ := titleLoop_mem _ _ _ hx
  have hne : c ≠ '_' := fun e => h (e ▸ hc)
  rcases hx with hx | hx | hx
  · exact hne hx.symm
  · exact hne ((lowerRune_eq_underscore _).1 hx.symm)
  · exact titleRune_ne_underscore _ hne hx.symm

theorem lowerRune_ne_underscore (c : Char) (h : c ≠ '_') : lowerRune c ≠ '_' :=
  fun e => h ((lowerRune_eq_underscore c).1 e)

theorem gNameWith_no_space (lower : Char → Char) (caser : List Char → List Char)
    (s : String) : ' ' ∉ (gNameWith lower caser s).data := by
  simp only [gNameWith, replaceAll, List.mem_flatMap, not_exists, not_and]
  intro c _ hc
  by_cases h : c = ' '
  · simp [h] at hc
  · simp only [h, if_false, List.mem_singleton] at hc
    exact h hc.symm

theorem gNameWith_no_underscore (lower : Char → Char) (caser : List Char → List Char)
    (hlow : ∀ c, c ≠ '_' → lower c ≠ '_') (hcas : ∀ l, '_' ∉ l → '_' ∉ caser l)
    (s : String) : '_' ∉ (gNameWith lower caser s).data := by
  have h1 : '_' ∉ (replaceAll s.data '_' [' ']).map lower := by
    rw [replaceAll_underscore, List.map_map]
    intro hm
    obtain ⟨c, _, hc⟩ := List.mem_map.1 hm
    simp only [Function.comp_apply] at hc
    by_cases h : c = '_'
    · simp only [h, if_true] at hc
      exact hlow ' ' (by decide) hc
    · simp only [h, if_false] at hc
      exact hlow c h hc
  have h2 := hcas _ h1
  simp only [gNameWith, replaceAll, List.mem_flatMap, not_exists, not_and]
  intro c hc hx
  by_cases h : c = ' '
  · simp [h] at hx
  · simp only [h, if_false, List.mem_singleton] at hx
    exact h2 (hx ▸ hc)

/-- Counterexample to C15: the tab of the name `a`, tab, `b` and the newline
of the name `a`, newline, `b` are kept: the identifiers are `A`, tab,
`BState` and `A`, newline, `BEvent`. -/
theorem tab_and_newline_are_kept :
    stateName "a\tb" = "A\tBState" ∧ Char.ofNat 9 ∈ (stateName "a\tb").data ∧
      eventName "a\nb" = "A\nBEvent" ∧ Char.ofNat 10 ∈ (eventName "a\nb").data := by
  decide

/-- C15, amended: `stateName` and `eventName` return an identifier for every
name; it ends with `State` resp. `Event` and contains no space, whatever the
tables of the two library calls are, and no underscore, as long as
lower-casing sends no other code point to the underscore and title-casing a
text without underscores gives a text without underscores. Whitespace other
than the space can stay: `a`, tab, `b` gives `A`, tab, `BState`. -/
theorem identifier_has_no_separator (lower : Char → Char) (caser : List Char → List Char)
    (hlow : ∀ c, c ≠ '_' → lower c ≠ '_') (hcas : ∀ l, '_' ∉ l → '_' ∉ caser l)
    (s : String) :
    ("State".data <:+ (stateNameWith lower caser s).data ∧
        '_' ∉ (stateNameWith lower caser s).data ∧
        ' ' ∉ (stateNameWith lower caser s).data) ∧
      ("Event".data <:+ (eventNameWith lower caser s).data ∧
        '_' ∉ (eventNameWith lower caser s).data ∧
        ' ' ∉ (eventNameWith lower caser s).data) ∧
      stateName "a\tb" = "A\tBState" ∧ eventName "a\nb" = "A\nBEvent" := by
  have h1 := gNameWith_no_underscore lower caser hlow hcas s
  have h2 := gNameWith_no_space lower caser s
  have a1 : '_' ∉ "State".data := by decide
  have a2 : ' ' ∉ "State".data := by decide
  have a3 : '_' ∉ "Event".data := by decide
  have a4 : ' ' ∉ "Event".data := by decide
  simp only [stateNameWith, eventNameWith, String.data_append, List.mem_append, not_or]
  exact ⟨⟨List.suffix_append _ _, ⟨h1, a1⟩, ⟨h2, a2⟩⟩,
    ⟨List.suffix_append _ _, ⟨h1, a3⟩, ⟨h2, a4⟩⟩, by decide, by decide⟩

/-- Witness of C15, amended: the ASCII tables and the name `turn_signal x`,
whose identifier is `TurnSignalXState`. -/
theorem identifier_has_no_separator_witness :
    ((∀ c, c ≠ '_' → lowerRune c ≠ '_') ∧ ∀ l, '_' ∉ l → '_' ∉ title l) ∧
    (("State".data <:+ (stateNameWith lowerRune title "turn_signal x").data ∧
        '_' ∉ (stateNameWith lowerRune title "turn_signal x").data ∧
        ' ' ∉ (stateNameWith lowerRune title "turn_signal x").data) ∧
      ("Event".data <:+ (eventNameWith lowerRune title "turn_signal x").data ∧
        '_' ∉ (eventNameWith lowerRune title "turn_signal x").data ∧
        ' ' ∉ (eventNameWith lowerRune title "turn_signal x").data) ∧
      stateName "a\tb" = "A\tBState" ∧ eventName "a\nb" = "A\nBEvent") ∧
    stateNameWith lowerRune title "turn_signal x" = "TurnSignalXState" :=
  ⟨⟨lowerRune_ne_underscore, title_no_underscore⟩,
    identifier_has_no_separator lowerRune title lowerRune_ne_underscore title_no_underscore
      "turn_signal x",
    by decide⟩

/-! ## The package clause -/

theorem packageName_getenv (v : Option String) :
    packageName (getenv v) =
      match v with
      | none => "main"
      | some w => if w = "" then "main" else w := by
  cases v with
  | none => rfl
  | some w =>
    simp only [getenv, Option.getD_some, packageName]
    by_cases hw : w = ""
    · subst hw
      rfl
    · have : ¬ w.length = 0 := by
        intro h0
        apply hw
        apply String.ext
        exact List.length_eq_zero.1 h0
      simp [hw, this]

/-- C14: the generated text opens with the header comment and the package
clause; the package named is `main` when `GOPACKAGE` is not set or is empty,
and the value of `GOPACKAGE` otherwise. -/
theorem package_clause (fsm : FSMData) (typeName : String) (v : Option String)
    (sOrd : List String) (eOrd : List Event) :
    ∃ rest, render (mkInput fsm typeName (getenv v) sOrd eOrd) =
      "\n// Code generated by \"fsmfy.go\"; DO NOT EDIT.\npackage " ++
        (match v with
          | none => "main"
          | some w => if w = "" then "main" else w) ++
        "\n\nimport (\n\t\"context\"\n\n\t\"github.com/looplab/fsm\"\n)\n\ntype (\n\t// " ++
        rest := by
  refine ⟨typeName ++ "State represents all states for this FSM.\n\t" ++
    typeName ++ "State string\n\t//" ++
    typeName ++ "Event  represents all events for this FSM.\n\t" ++
    typeName ++ "Event string\n)\n\n" ++
    (tmplConsts (mkInput fsm typeName (getenv v) sOrd eOrd) ++
      tmplStruct (mkInput fsm typeName (getenv v) sOrd eOrd) ++
      tmplNew (mkInput fsm typeName (getenv v) sOrd eOrd) ++
      tmplMethods (mkInput fsm typeName (getenv v) sOrd eOrd)), ?_⟩
  rw [← packageName_getenv]
  simp only [render, tmplTypes, mkInput, String.append_assoc]

/-! ## The events of a model -/

/-- C16: in the data a run hands to the template, the events have pairwise
different names, one event for each event name that the schema declares, and
the source list of every event is non-empty and holds no state twice. -/
theorem events_are_distinct (fsm : FSMData) (typeName gopackage : String) (d : Input)
    (hwf : fsm.WF) (h : InputOf fsm typeName gopackage d) :
    (d.Events.map Event.Name).Nodup ∧
      (∀ ek, ek ∈ d.Events.map Event.Name ↔ ∃ k ev, Declares fsm k ek ev) ∧
      ∀ e ∈ d.Events, e.From ≠ [] ∧ e.From.Nodup := by
  obtain ⟨v, sOrd, htr, _, _, _, _, _, _, hen, hem, hev⟩ := h.spec
  refine ⟨hen, ?_, ?_⟩
  · intro ek
    rw [hem]
    constructor
    · rintro ⟨⟨a, b, c⟩, hx, hxk⟩
      simp only at hxk
      subst hxk
      exact ⟨a, c, (htr.mem_decls_iff _ _ _).1 hx⟩
    · rintro ⟨k, ev, hdec⟩
      exact ⟨(k, ek, ev), (htr.mem_decls_iff _ _ _).2 hdec, rfl⟩
  · intro e he
    obtain ⟨hfrom, _⟩ := hev e he
    obtain ⟨⟨a, b, c⟩, hx, hxk⟩ := (hem e.Name).1 (List.mem_map_of_mem _ he)
    simp only at hxk
    subst hxk
    rw [hfrom]
    refine ⟨?_, htr.sources_nodup hwf _⟩
    intro hnil
    have : a ∈ srcOf (decls v) e.Name := (mem_srcOf _ _ _).2 ⟨c, hx⟩
    rw [hnil] at this
    cases this

/-- Witness of C16: the run on `mergeFsm` that visits `A` before `B`; its one
event `go` has the sources `A` and `B`. -/
theorem events_are_distinct_witness :
    (mergeFsm.WF ∧ InputOf mergeFsm "Merge" "" mergeInputAB) ∧
    ((mergeInputAB.Events.map Event.Name).Nodup ∧
      (∀ ek, ek ∈ mergeInputAB.Events.map Event.Name ↔ ∃ k ev, Declares mergeFsm k ek ev) ∧
      ∀ e ∈ mergeInputAB.Events, e.From ≠ [] ∧ e.From.Nodup) ∧
    mergeInputAB.Events = [{ Name := "go", From := ["A", "B"], To := "C" }] :=
  ⟨⟨mergeFsm_WF, mergeInputAB_run⟩,
    events_are_distinct mergeFsm "Merge" "" mergeInputAB mergeFsm_WF mergeInputAB_run, rfl⟩

/-! ## The output path and the input path -/

theorem trimRight_append_singleton (l cutset : List Char) (c : Char) :
    trimRight (l ++ [c]) cutset = if c ∈ cutset then trimRight l cutset else l ++ [c] := by
  unfold trimRight
  rw [List.reverse_append, List.reverse_singleton, List.singleton_append, List.dropWhile_cons]
  by_cases h : c ∈ cutset
  · simp [h]
  · simp [h]

/-- C17: for every input path the derived output path ends with `.go` and is
not the input path. -/
theorem output_path_differs (arg1 : String) :
    ".go".data <:+ (destinationFile arg1).data ∧ destinationFile arg1 ≠ arg1 := by
  constructor
  · simp only [destinationFile, String.data_append]
    exact List.suffix_append _ _
  · intro h
    have hd : trimRight arg1.data ".json".data ++ ['.', 'g', 'o'] = arg1.data := by
      have := congrArg String.data h
      simpa [destinationFile, String.data_append] using this
    have ho : 'o' ∈ ".json".data := by decide
    have hg : 'g' ∉ ".json".data := by decide
    have hsplit : trimRight arg1.data ".json".data ++ ['.', 'g', 'o'] =
        ((trimRight arg1.data ".json".data ++ ['.']) ++ ['g']) ++ ['o'] := by simp
    have ht : trimRight arg1.data ".json".data =
        (trimRight arg1.data ".json".data ++ ['.']) ++ ['g'] := by
      conv_lhs => rw [← hd, hsplit, trimRight_append_singleton, if_pos ho,
        trimRight_append_singleton, if_neg hg]
    have hl := congrArg List.length ht
    simp at hl

end Statify
